import Mathlib

/-!
Verification of the polymarket-viewer client-side pipeline: time-series
buffering (src/lib/buffer.ts), candle aggregation (src/lib/candles.ts), the
delayed view composer (src/hooks/useCandles.ts), the point-estimate readout
(BigPercent) and the probability blending of the feed aggregator
(src/lib/useMarketWS.ts).

Timestamps are JavaScript millisecond integers, modelled as Int.  Prices are
probabilities; every arithmetic operation performed on them by the code
(averages, max/min, clamping) is modelled exactly over Rat.  Math.floor(x / y)
on integers is Int.fdiv, and the JavaScript "(lo + hi) >> 1" on non-negative
operands is Int.fdiv by 2.
-/

/-- PricePoint from src/lib/types.ts: a timestamped probability sample. -/
structure PricePoint where
  t : Int
  p : Rat
deriving DecidableEq

/-- Candle from src/lib/types.ts: an OHLC bucket keyed by its start time. -/
structure Candle where
  t : Int
  «open» : Rat
  high : Rat
  low : Rat
  close : Rat
deriving DecidableEq

/-- Default point used to model JavaScript array indexing (never reached on
in-bounds accesses, which are the only ones the code performs). -/
def dfltPt : PricePoint := ⟨0, 0⟩

/-- Default candle for the same purpose. -/
def dfltCandle : Candle := ⟨0, 0, 0, 0, 0⟩

/-! ## Candle builder (src/lib/candles.ts) -/

/-- The comparator `(a, b) => a.t - b.t` used by `points.sort`. -/
def ptLE (a b : PricePoint) : Bool := a.t ≤ b.t

/-- `[...points].sort((a, b) => a.t - b.t)` — a stable ascending sort by t. -/
def sortPoints (points : List PricePoint) : List PricePoint :=
  points.mergeSort ptLE

/-- `Math.floor(t / intervalMs) * intervalMs`. -/
def bucketStartOf (intervalMs t : Int) : Int :=
  (t.fdiv intervalMs) * intervalMs

/-- First point seen in a bucket: `{ t: bucketStart, open: p, high: p, low: p, close: p }`. -/
def newCandle (b : Int) (p : Rat) : Candle := ⟨b, p, p, p, p⟩

/-- Subsequent point in a bucket: `high = max(high, p); low = min(low, p); close = p`. -/
def updateCandle (c : Candle) (p : Rat) : Candle :=
  { c with high := max c.high p, low := min c.low p, close := p }

/-- One step of the `bucketMap` update: the JS Map keyed by bucketStart is an
insertion-ordered association list whose key is the candle's own `t`. -/
def insertPoint (m : List Candle) (b : Int) (p : Rat) : List Candle :=
  match m with
  | [] => [newCandle b p]
  | c :: rest => if c.t = b then updateCandle c p :: rest else c :: insertPoint rest b p

/-- The comparator `(a, b) => a.t - b.t` used on candles. -/
def candleLE (a b : Candle) : Bool := a.t ≤ b.t

/-- The gap-filling while loop of buildCandles:
`while (expected < next.t) { filled.push(doji(expected, cur.close)); expected += intervalMs }`.
The `0 < intervalMs` conjunct only makes termination explicit: the loop is
reached only behind the `intervalMs <= 0` early return. -/
def fillForward (expected stop intervalMs : Int) (price : Rat) : List Candle :=
  if _h : 0 < intervalMs ∧ expected < stop then
    (⟨expected, price, price, price, price⟩ : Candle) ::
      fillForward (expected + intervalMs) stop intervalMs price
  else []
termination_by (stop - expected).toNat
decreasing_by omega

/-- The `filled` construction: every candle is pushed, and between each
adjacent pair the missing buckets are filled with flat candles carrying the
earlier candle's close. -/
def gapFill (candles : List Candle) (intervalMs : Int) : List Candle :=
  match candles with
  | [] => []
  | [c] => [c]
  | c :: next :: rest =>
      c :: (fillForward (c.t + intervalMs) next.t intervalMs c.close ++
        gapFill (next :: rest) intervalMs)

/-- The `for (const { t, p } of sorted)` loop accumulating the bucketMap. -/
def bucketize (intervalMs : Int) (l : List PricePoint) : List Candle :=
  l.foldl (fun m q => insertPoint m (bucketStartOf intervalMs q.t) q.p) []

/-- buildCandles from src/lib/candles.ts.  `fillGaps` is the
`opts?.fillGaps !== false` option, which defaults to `true` at every call
site in the repository. -/
def buildCandles (points : List PricePoint) (intervalMs : Int) (fillGaps : Bool) : List Candle :=
  if intervalMs ≤ 0 then []
  else if points.isEmpty then []
  else
    let candles := (bucketize intervalMs (sortPoints points)).mergeSort candleLE
    if !fillGaps || candles.isEmpty then candles
    else gapFill candles intervalMs

/-! ## Bounded time-series buffer (src/lib/buffer.ts) -/

/-- TimeSeries: the private `buf` array plus the two configured bounds.
`maxAgeMs` is optional exactly as in the constructor options. -/
structure TimeSeries where
  buf : List PricePoint
  maxPoints : Nat
  maxAgeMs : Option Int
deriving DecidableEq

/-- The lower-bound binary search inside `push`:
`let lo = 0, hi = len - 1, idx = len; while (lo <= hi) { mid = (lo+hi)>>1;
if (buf[mid].t >= cutoff) { idx = mid; hi = mid - 1 } else lo = mid + 1 }`. -/
def ageIdxLoop (arr : List PricePoint) (cutoff : Int) (lo hi idx : Int) : Int :=
  if _h : lo ≤ hi then
    let mid := (lo + hi).fdiv 2
    if (arr.getD mid.toNat dfltPt).t ≥ cutoff then ageIdxLoop arr cutoff lo (mid - 1) mid
    else ageIdxLoop arr cutoff (mid + 1) hi idx
  else idx
termination_by (hi + 1 - lo).toNat
decreasing_by
  all_goals simp only [Int.fdiv_eq_ediv _ (by norm_num : (0:Int) ≤ 2)] at *
  all_goals omega

/-- TimeSeries.push: append, then age-trim (when configured), then count-trim.
The successive reassignments of the mutable `this.buf` are the successive
`bufN` bindings. -/
def TimeSeries.push (s : TimeSeries) (q : PricePoint) : TimeSeries :=
  let buf1 := s.buf ++ [q]
  let buf2 :=
    match s.maxAgeMs with
    | some maxAge =>
        let cutoff := q.t - maxAge
        let idx := ageIdxLoop buf1 cutoff 0 ((buf1.length : Int) - 1) (buf1.length : Int)
        if idx > 0 then buf1.drop idx.toNat else buf1
    | none => buf1
  let buf3 := if buf2.length > s.maxPoints then buf2.drop (buf2.length - s.maxPoints) else buf2
  { s with buf := buf3 }

/-- The binary search shared (as duplicated code) by `atOrBefore` and
`indexAtOrBefore`: `while (lo <= hi) { mid = (lo+hi)>>1; if (arr[mid].t <= ts)
{ ans = mid; lo = mid + 1 } else hi = mid - 1 }`. -/
def aobLoop (arr : List PricePoint) (ts : Int) (lo hi ans : Int) : Int :=
  if _h : lo ≤ hi then
    let mid := (lo + hi).fdiv 2
    if (arr.getD mid.toNat dfltPt).t ≤ ts then aobLoop arr ts (mid + 1) hi mid
    else aobLoop arr ts lo (mid - 1) ans
  else ans
termination_by (hi + 1 - lo).toNat
decreasing_by
  all_goals simp only [Int.fdiv_eq_ediv _ (by norm_num : (0:Int) ≤ 2)] at *
  all_goals omega

/-- TimeSeries.atOrBefore: the last point with `t <= ts`, or none. -/
def TimeSeries.atOrBefore (s : TimeSeries) (ts : Int) : Option PricePoint :=
  let arr := s.buf
  if arr.length = 0 then none
  else
    let ans := aobLoop arr ts 0 ((arr.length : Int) - 1) (-1)
    if ans ≥ 0 then some (arr.getD ans.toNat dfltPt) else none

/-- TimeSeries.indexAtOrBefore: the index of the last point with `t <= ts`, or -1. -/
def TimeSeries.indexAtOrBefore (s : TimeSeries) (ts : Int) : Int :=
  let arr := s.buf
  if arr.length = 0 then -1
  else aobLoop arr ts 0 ((arr.length : Int) - 1) (-1)

/-- TimeSeries.toArray: the raw buffer (read-only intent). -/
def TimeSeries.toArray (s : TimeSeries) : List PricePoint := s.buf

/-! ## Delayed view composer (src/hooks/useCandles.ts) -/

/-- The forward-extension while loop of useCandles:
`let t = last.t + intervalMs; while (t <= currentBucketStart)
{ extended.push(doji(t, last.close)); last = extended[extended.length-1]; t += intervalMs }`.
The carried candle is re-read each iteration exactly as in the source; the
`0 < intervalMs` conjunct only makes termination explicit (the loop is only
reached with a positive interval, since otherwise `candlesAll` is empty). -/
def extendForward (t stop intervalMs : Int) (last : Candle) : List Candle :=
  if _h : 0 < intervalMs ∧ t ≤ stop then
    let price := last.close
    let c : Candle := ⟨t, price, price, price, price⟩
    c :: extendForward (t + intervalMs) stop intervalMs c
  else []
termination_by (stop + 1 - t).toNat
decreasing_by omega

/-- useCandles from src/hooks/useCandles.ts: filter both sources at the
display cutoff, aggregate, then extend with synthetic candles up to the
current (delayed) bucket.  `intervalMs` stands for `tfToMs(tf)`. -/
def useCandles (series : TimeSeries) (backfill : List PricePoint)
    (nowTs delayMs intervalMs : Int) : List Candle :=
  let displayCutoff := nowTs - delayMs
  let filteredBackfill := backfill.filter (fun q => q.t ≤ displayCutoff)
  let filteredLive := series.toArray.filter (fun q => q.t ≤ displayCutoff)
  let candlesAll := buildCandles (filteredBackfill ++ filteredLive) intervalMs true
  if candlesAll.isEmpty then candlesAll
  else
    let currentBucketStart := bucketStartOf intervalMs displayCutoff
    let last := candlesAll.getLast?.getD dfltCandle
    candlesAll ++ extendForward (last.t + intervalMs) currentBucketStart intervalMs last

/-! ## Point-estimate readout (BigPercent in src/components) -/

/-- What the BigPercent component renders: a probability value, a
spoiler-protection countdown in whole seconds, or the waiting placeholder. -/
inductive Readout where
  | percent (pt : PricePoint)
  | countdown (secs : Int)
  | waiting
deriving DecidableEq

/-- `Math.ceil(x / y)` on an integer numerator and positive integer
denominator. -/
def jsCeilDiv (x y : Int) : Int := -((-x).fdiv y)

/-- BigPercent's data path: `pt = series.atOrBefore(nowTs - delayMs)`; if
absent, a countdown computed from the earliest buffered point (`arr[0]?.t ?? 0`),
or the waiting state for an empty buffer. -/
def bigPercent (series : TimeSeries) (nowTs delayMs : Int) : Readout :=
  let displayTs := nowTs - delayMs
  match series.atOrBefore displayTs with
  | some pt => Readout.percent pt
  | none =>
      let arr := series.toArray
      if arr.length = 0 then Readout.waiting
      else
        let earliest := (arr.head?.map (fun q => q.t)).getD 0
        let remainingMs := earliest + delayMs - nowTs
        Readout.countdown (if remainingMs ≤ 0 then 0 else jsCeilDiv remainingMs 1000)

/-! ## Dual-outcome feed aggregator (src/lib/useMarketWS.ts) -/

/-- TOB from src/lib/types.ts. -/
structure TOB where
  bestBid : Option Rat
  bestAsk : Option Rat
  last : Option Rat
  updatedAt : Option Int
deriving DecidableEq

/-- `clamp01 = (n) => Math.max(0, Math.min(1, n))`. -/
def clamp01 (n : Rat) : Rat := max 0 (min 1 n)

/-- midFrom: mid of bid/ask when both present, else last, else bid, else ask,
else undefined; `none` as argument models `tobRef.current[id]` being absent. -/
def midFrom (tob : Option TOB) : Option Rat :=
  match tob with
  | none => none
  | some t =>
      match t.bestBid, t.bestAsk, t.last with
      | some bb, some ba, _ => some ((bb + ba) / 2)
      | _, _, some l => some l
      | some bb, none, none => some bb
      | none, some ba, none => some ba
      | none, none, none => none

/-- computeBlendedProb for the YES outcome. -/
def computeBlendedProb (y n : Option TOB) : Option Rat :=
  match midFrom y, midFrom n with
  | some my, some mn => some (clamp01 ((my + (1 - mn)) / 2))
  | some my, none => some (clamp01 my)
  | none, some mn => some (clamp01 (1 - mn))
  | none, none => none

/-- computeNoProb for the NO outcome. -/
def computeNoProb (y n : Option TOB) : Option Rat :=
  match midFrom y, midFrom n with
  | _, some mn => some (clamp01 mn)
  | some my, none => some (clamp01 (1 - my))
  | none, none => none

/-! ## Specification-level vocabulary used by the theorem statements -/

/-- Ascending (non-decreasing) timestamp order — the documented buffer
invariant. -/
def sortedByT (l : List PricePoint) : Prop :=
  l.Pairwise (fun a b => a.t ≤ b.t)

instance (l : List PricePoint) : Decidable (sortedByT l) := by
  unfold sortedByT
  infer_instance

/-- A flat synthetic ("doji") candle. -/
def doji (t : Int) (price : Rat) : Candle := ⟨t, price, price, price, price⟩

/-- Fold a bucket's points into its OHLC candle, in list order: the
specification of what the bucketMap accumulates for one key. -/
def bucketFold (b : Int) (ps : List PricePoint) : Option Candle :=
  ps.foldl (fun acc q =>
    some (match acc with
          | none => newCandle b q.p
          | some c => updateCandle c q.p)) none

/-- Modelled from the spec (claim C7's wording, §4.1 trimming policy):
after appending, drop every point with `t < point.t - maxAgeMs` (when the
age bound is configured), then drop from the front until at most maxPoints
remain. -/
def pushSpec (s : TimeSeries) (q : PricePoint) : List PricePoint :=
  let appended := s.buf ++ [q]
  let aged :=
    match s.maxAgeMs with
    | some maxAge => appended.filter (fun r => !(r.t < q.t - maxAge))
    | none => appended
  if aged.length > s.maxPoints then aged.drop (aged.length - s.maxPoints) else aged

/-- Repeated pushes, oldest first. -/
def pushAll (s : TimeSeries) (ps : List PricePoint) : TimeSeries :=
  ps.foldl TimeSeries.push s

/-- Keep the most recent `M` entries. -/
def lastN (M : Nat) (l : List PricePoint) : List PricePoint :=
  l.drop (l.length - M)

/-- The bucket membership test for a candidate bucket start. -/
def fbkt (i b : Int) : PricePoint → Bool := fun q => bucketStartOf i q.t == b

/-- Keys of the association list (candles are keyed by their own `t`). -/
def keysOf (m : List Candle) : List Int := m.map (fun c => c.t)

/-! ## Sorted-list facts about downward-closed predicates -/

theorem sorted_tail {a : PricePoint} {l : List PricePoint} (h : sortedByT (a :: l)) :
    sortedByT l :=
  (List.pairwise_cons.mp h).2

theorem sorted_head_le {a : PricePoint} {l : List PricePoint} (h : sortedByT (a :: l)) :
    ∀ q ∈ l, a.t ≤ q.t :=
  (List.pairwise_cons.mp h).1

theorem sorted_getD_iff (f : PricePoint → Bool)
    (hmono : ∀ a b : PricePoint, a.t ≤ b.t → f b = true → f a = true) :
    ∀ (l : List PricePoint), sortedByT l → ∀ k : Nat, k < l.length →
      (f (l.getD k dfltPt) = true ↔ k < (l.takeWhile f).length) := by
  intro l
  induction l with
  | nil => intro _ k hk; simp at hk
  | cons a l ih =>
      intro hs k hk
      by_cases hfa : f a = true
      · cases k with
        | zero => simp [hfa]
        | succ k =>
            simp only [List.getD_cons_succ, List.takeWhile_cons, hfa, if_true,
              List.length_cons, Nat.add_lt_add_iff_right]
            exact ih (sorted_tail hs) k (by simpa using hk)
      · rw [Bool.not_eq_true] at hfa
        cases k with
        | zero => simp [List.takeWhile_cons, hfa]
        | succ k =>
            have hk' : k < l.length := by simpa using hk
            simp only [List.getD_cons_succ, List.takeWhile_cons, hfa, Bool.false_eq_true,
              if_false, List.length_nil]
            constructor
            · intro hfk
              exfalso
              have : f a = true := by
                apply hmono a (l.getD k dfltPt) _ hfk
                apply sorted_head_le hs
                rw [List.getD_eq_getElem l dfltPt hk']
                exact List.getElem_mem hk'
              simp [this] at hfa
            · intro h; omega

theorem sorted_filter_eq_takeWhile (f : PricePoint → Bool)
    (hmono : ∀ a b : PricePoint, a.t ≤ b.t → f b = true → f a = true) :
    ∀ (l : List PricePoint), sortedByT l → l.filter f = l.takeWhile f := by
  intro l
  induction l with
  | nil => intro _; rfl
  | cons a l ih =>
      intro hs
      by_cases hfa : f a = true
      · simp only [List.filter_cons, List.takeWhile_cons, hfa, if_true]
        rw [ih (sorted_tail hs)]
      · rw [Bool.not_eq_true] at hfa
        simp only [List.filter_cons, List.takeWhile_cons, hfa, Bool.false_eq_true, if_false]
        rw [List.filter_eq_nil_iff]
        intro q hq
        intro hfq
        have : f a = true := hmono a q (sorted_head_le hs q hq) hfq
        simp [this] at hfa

theorem sorted_dropWhile_eq_filter_not (f : PricePoint → Bool)
    (hmono : ∀ a b : PricePoint, a.t ≤ b.t → f b = true → f a = true) :
    ∀ (l : List PricePoint), sortedByT l → l.dropWhile f = l.filter (fun q => !(f q)) := by
  intro l
  induction l with
  | nil => intro _; rfl
  | cons a l ih =>
      intro hs
      by_cases hfa : f a = true
      · simp only [List.dropWhile_cons, List.filter_cons, hfa, if_true, Bool.not_true,
          Bool.false_eq_true, if_false]
        exact ih (sorted_tail hs)
      · rw [Bool.not_eq_true] at hfa
        simp only [List.dropWhile_cons, List.filter_cons, hfa, Bool.false_eq_true, if_false,
          Bool.not_false, if_true]
        congr 1
        rw [eq_comm, List.filter_eq_self]
        intro q hq
        cases hfq : f q with
        | false => simp
        | true =>
            exfalso
            have : f a = true := hmono a q (sorted_head_le hs q hq) hfq
            simp [this] at hfa

theorem drop_takeWhile_length (f : PricePoint → Bool) (l : List PricePoint) :
    l.drop (l.takeWhile f).length = l.dropWhile f := by
  have h2 := congrArg (fun x => List.drop (l.takeWhile f).length x)
    (List.takeWhile_append_dropWhile (p := f) (l := l)).symm
  simp only at h2
  rw [h2, List.drop_left]

/-- The monotonicity fact for the predicate `q.t <= ts`. -/
theorem leMono (ts : Int) :
    ∀ a b : PricePoint, a.t ≤ b.t → decide (b.t ≤ ts) = true → decide (a.t ≤ ts) = true := by
  intro a b hab h
  simp only [decide_eq_true_eq] at *
  omega

/-- The monotonicity fact for the predicate `q.t < cutoff`. -/
theorem ltMono (cutoff : Int) :
    ∀ a b : PricePoint, a.t ≤ b.t → decide (b.t < cutoff) = true → decide (a.t < cutoff) = true := by
  intro a b hab h
  simp only [decide_eq_true_eq] at *
  omega

/-! ## Binary-search loop correctness -/

/-- On a sorted buffer, the atOrBefore loop returns (index of the last point
with `t <= ts`) i.e. one less than the length of the `t <= ts` prefix,
provided the standard lower/upper bracket invariants hold. -/
theorem aobLoop_sorted_spec (arr : List PricePoint) (ts : Int) (hs : sortedByT arr) :
    ∀ (fuel : Nat) (lo hi ans : Int),
      (hi + 1 - lo).toNat ≤ fuel →
      0 ≤ lo → lo ≤ hi + 1 → hi < (arr.length : Int) →
      ans = lo - 1 →
      lo ≤ ((arr.takeWhile (fun q => decide (q.t ≤ ts))).length : Int) →
      ((arr.takeWhile (fun q => decide (q.t ≤ ts))).length : Int) ≤ hi + 1 →
      aobLoop arr ts lo hi ans = ((arr.takeWhile (fun q => decide (q.t ≤ ts))).length : Int) - 1 := by
  intro fuel
  induction fuel with
  | zero =>
      intro lo hi ans hfuel h0 hbr hhi hans hK1 hK2
      rw [aobLoop]
      have hc : ¬ lo ≤ hi := by omega
      simp only [hc, dite_false]
      omega
  | succ n ih =>
      intro lo hi ans hfuel h0 hbr hhi hans hK1 hK2
      rw [aobLoop]
      by_cases hc : lo ≤ hi
      · simp only [hc, dite_true]
        have hmid2 : (lo + hi).fdiv 2 = (lo + hi) / 2 :=
          Int.fdiv_eq_ediv _ (by norm_num)
        have hlo_mid : lo ≤ (lo + hi).fdiv 2 := by omega
        have hmid_hi : (lo + hi).fdiv 2 ≤ hi := by omega
        have hmidn : ((lo + hi).fdiv 2).toNat < arr.length := by omega
        have hKiff := sorted_getD_iff (fun q => decide (q.t ≤ ts)) (leMono ts) arr hs
          ((lo + hi).fdiv 2).toNat hmidn
        simp only [decide_eq_true_eq] at hKiff
        by_cases hp : (arr.getD ((lo + hi).fdiv 2).toNat dfltPt).t ≤ ts
        · rw [if_pos hp]
          have hmidK : (((lo + hi).fdiv 2).toNat : Int) <
              ((arr.takeWhile (fun q => decide (q.t ≤ ts))).length : Int) := by
            exact_mod_cast hKiff.mp hp
          exact ih ((lo + hi).fdiv 2 + 1) hi ((lo + hi).fdiv 2)
            (by omega) (by omega) (by omega) hhi (by omega) (by omega) hK2
        · rw [if_neg hp]
          have hmidK : ((arr.takeWhile (fun q => decide (q.t ≤ ts))).length : Int) ≤
              (((lo + hi).fdiv 2).toNat : Int) := by
            have := hKiff.mpr
            by_contra hcon
            exact hp (hKiff.mpr (by omega))
          exact ih lo ((lo + hi).fdiv 2 - 1) ans
            (by omega) h0 (by omega) (by omega) hans hK1 (by omega)
      · simp only [hc, dite_false]
        omega

/-- On a sorted buffer, the push lower-bound loop returns the index of the
first point with `t >= cutoff` (i.e. the length of the `t < cutoff` prefix),
provided the bracket invariants hold. -/
theorem ageIdxLoop_sorted_spec (arr : List PricePoint) (cutoff : Int) (hs : sortedByT arr) :
    ∀ (fuel : Nat) (lo hi idx : Int),
      (hi + 1 - lo).toNat ≤ fuel →
      0 ≤ lo → lo ≤ hi + 1 → hi < (arr.length : Int) →
      idx = hi + 1 →
      lo ≤ ((arr.takeWhile (fun q => decide (q.t < cutoff))).length : Int) →
      ((arr.takeWhile (fun q => decide (q.t < cutoff))).length : Int) ≤ idx →
      ageIdxLoop arr cutoff lo hi idx =
        ((arr.takeWhile (fun q => decide (q.t < cutoff))).length : Int) := by
  intro fuel
  induction fuel with
  | zero =>
      intro lo hi idx hfuel h0 hbr hhi hidx hK1 hK2
      rw [ageIdxLoop]
      have hc : ¬ lo ≤ hi := by omega
      simp only [hc, dite_false]
      omega
  | succ n ih =>
      intro lo hi idx hfuel h0 hbr hhi hidx hK1 hK2
      rw [ageIdxLoop]
      by_cases hc : lo ≤ hi
      · simp only [hc, dite_true]
        have hmid2 : (lo + hi).fdiv 2 = (lo + hi) / 2 :=
          Int.fdiv_eq_ediv _ (by norm_num)
        have hlo_mid : lo ≤ (lo + hi).fdiv 2 := by omega
        have hmid_hi : (lo + hi).fdiv 2 ≤ hi := by omega
        have hmidn : ((lo + hi).fdiv 2).toNat < arr.length := by omega
        have hKiff := sorted_getD_iff (fun q => decide (q.t < cutoff)) (ltMono cutoff) arr hs
          ((lo + hi).fdiv 2).toNat hmidn
        simp only [decide_eq_true_eq] at hKiff
        by_cases hp : (arr.getD ((lo + hi).fdiv 2).toNat dfltPt).t ≥ cutoff
        · rw [if_pos hp]
          have hmidK : ((arr.takeWhile (fun q => decide (q.t < cutoff))).length : Int) ≤
              (((lo + hi).fdiv 2).toNat : Int) := by
            by_contra hcon
            have : (arr.getD ((lo + hi).fdiv 2).toNat dfltPt).t < cutoff :=
              hKiff.mpr (by omega)
            omega
          exact ih lo ((lo + hi).fdiv 2 - 1) ((lo + hi).fdiv 2)
            (by omega) h0 (by omega) (by omega) (by omega) hK1 (by omega)
        · rw [if_neg hp]
          have hmidK : (((lo + hi).fdiv 2).toNat : Int) <
              ((arr.takeWhile (fun q => decide (q.t < cutoff))).length : Int) := by
            have : (arr.getD ((lo + hi).fdiv 2).toNat dfltPt).t < cutoff := by omega
            exact_mod_cast hKiff.mp this
          exact ih ((lo + hi).fdiv 2 + 1) hi idx
            (by omega) (by omega) (by omega) hhi (by omega) (by omega) hK2
      · simp only [hc, dite_false]
        omega

/-- Without any sortedness assumption, the push lower-bound loop never
returns an index past a final element that satisfies `t >= cutoff`: the
invariants are that `idx` brackets `hi`, and that `lo` can only reach `n`
by having probed the final element negatively. -/
theorem ageIdxLoop_keeps_last (arr : List PricePoint) (cutoff : Int)
    (hlast : (arr.getD (arr.length - 1) dfltPt).t ≥ cutoff) (hne : arr ≠ []) :
    ∀ (fuel : Nat) (lo hi idx : Int),
      (hi + 1 - lo).toNat ≤ fuel →
      0 ≤ lo → lo ≤ (arr.length : Int) → hi ≤ (arr.length : Int) - 1 →
      (idx = (arr.length : Int) → hi = (arr.length : Int) - 1) →
      (idx < (arr.length : Int) → 0 ≤ idx) →
      (lo = (arr.length : Int) → False) →
      idx ≤ (arr.length : Int) →
      0 ≤ ageIdxLoop arr cutoff lo hi idx ∧
        ageIdxLoop arr cutoff lo hi idx ≤ (arr.length : Int) - 1 := by
  have hn : 1 ≤ arr.length := by
    cases arr with
    | nil => exact absurd rfl hne
    | cons a l => simp
  intro fuel
  induction fuel with
  | zero =>
      intro lo hi idx hfuel h0 hlon hhi hinv1 hinv2 hinv3 hidxn
      rw [ageIdxLoop]
      have hc : ¬ lo ≤ hi := by omega
      simp only [hc, dite_false]
      by_cases hid : idx = (arr.length : Int)
      · exfalso
        have hhi' := hinv1 hid
        exact hinv3 (by omega)
      · have hidlt : idx < (arr.length : Int) := by omega
        exact ⟨hinv2 hidlt, by omega⟩
  | succ n ih =>
      intro lo hi idx hfuel h0 hlon hhi hinv1 hinv2 hinv3 hidxn
      rw [ageIdxLoop]
      by_cases hc : lo ≤ hi
      · simp only [hc, dite_true]
        have hmid2 : (lo + hi).fdiv 2 = (lo + hi) / 2 :=
          Int.fdiv_eq_ediv _ (by norm_num)
        have hlo_mid : lo ≤ (lo + hi).fdiv 2 := by omega
        have hmid_hi : (lo + hi).fdiv 2 ≤ hi := by omega
        by_cases hp : (arr.getD ((lo + hi).fdiv 2).toNat dfltPt).t ≥ cutoff
        · rw [if_pos hp]
          exact ih lo ((lo + hi).fdiv 2 - 1) ((lo + hi).fdiv 2)
            (by omega) h0 hlon (by omega) (by omega) (by omega) hinv3 (by omega)
        · rw [if_neg hp]
          have hnewlo : (lo + hi).fdiv 2 + 1 = (arr.length : Int) → False := by
            intro heq
            apply hp
            have : ((lo + hi).fdiv 2).toNat = arr.length - 1 := by omega
            rw [this]
            exact hlast
          exact ih ((lo + hi).fdiv 2 + 1) hi idx
            (by omega) (by omega) (by omega) hhi hinv1 hinv2 hnewlo hidxn
      · simp only [hc, dite_false]
        by_cases hid : idx = (arr.length : Int)
        · exfalso
          have hhi' := hinv1 hid
          exact hinv3 (by omega)
        · have hidlt : idx < (arr.length : Int) := by omega
          exact ⟨hinv2 hidlt, by omega⟩

/-! ## TimeSeries lookup and push characterizations -/

theorem takeWhile_length_le (f : PricePoint → Bool) (l : List PricePoint) :
    (l.takeWhile f).length ≤ l.length :=
  (List.takeWhile_prefix f).length_le

theorem takeWhile_getLast?_eq (f : PricePoint → Bool) (l : List PricePoint)
    (hK : 0 < (l.takeWhile f).length) :
    (l.takeWhile f).getLast? = some (l.getD ((l.takeWhile f).length - 1) dfltPt) := by
  have hpre : l.takeWhile f = l.take (l.takeWhile f).length :=
    List.prefix_iff_eq_take.mp (List.takeWhile_prefix f)
  have hlen := takeWhile_length_le f l
  have hidx : (l.takeWhile f).length - 1 < l.length := by omega
  rw [List.getLast?_eq_getElem?]
  conv_lhs => rw [hpre]
  rw [List.getElem?_take]
  have hlt : (l.take (l.takeWhile f).length).length = (l.takeWhile f).length := by
    rw [List.length_take]
    omega
  rw [hlt]
  rw [if_pos (by omega)]
  rw [List.getElem?_eq_getElem hidx, List.getD_eq_getElem l dfltPt hidx]

theorem getLast?_mem_of_eq {α : Type} {l : List α} {x : α}
    (h : l.getLast? = some x) : x ∈ l := by
  rw [List.getLast?_eq_getElem?] at h
  exact List.getElem?_mem h

/-- On a sorted buffer, atOrBefore returns exactly the last point with
`t <= ts` (the last element of the filtered buffer). -/
theorem atOrBefore_eq (s : TimeSeries) (ts : Int) (hs : sortedByT s.buf) :
    s.atOrBefore ts = (s.buf.filter (fun q => q.t ≤ ts)).getLast? := by
  unfold TimeSeries.atOrBefore
  rw [sorted_filter_eq_takeWhile _ (leMono ts) _ hs]
  by_cases hn : s.buf.length = 0
  · rw [if_pos hn]
    rw [List.length_eq_zero] at hn
    rw [hn]
    rfl
  · rw [if_neg hn]
    have hKle := takeWhile_length_le (fun q => decide (q.t ≤ ts)) s.buf
    have hloop := aobLoop_sorted_spec s.buf ts hs s.buf.length 0 ((s.buf.length : Int) - 1) (-1)
      (by omega) (by omega) (by omega) (by omega) (by omega) (by omega) (by omega)
    rw [hloop]
    by_cases hK : (s.buf.takeWhile (fun q => decide (q.t ≤ ts))).length = 0
    · rw [if_neg (by omega)]
      rw [List.length_eq_zero] at hK
      rw [hK]
      rfl
    · rw [if_pos (by omega)]
      rw [takeWhile_getLast?_eq _ _ (by omega)]
      congr 1
      congr 1
      omega

/-- On a sorted buffer, indexAtOrBefore returns one less than the number of
points with `t <= ts`. -/
theorem indexAtOrBefore_eq (s : TimeSeries) (ts : Int) (hs : sortedByT s.buf) :
    s.indexAtOrBefore ts = ((s.buf.filter (fun q => q.t ≤ ts)).length : Int) - 1 := by
  unfold TimeSeries.indexAtOrBefore
  rw [sorted_filter_eq_takeWhile _ (leMono ts) _ hs]
  by_cases hn : s.buf.length = 0
  · rw [if_pos hn]
    rw [List.length_eq_zero] at hn
    rw [hn]
    rfl
  · rw [if_neg hn]
    have hKle := takeWhile_length_le (fun q => decide (q.t ≤ ts)) s.buf
    exact aobLoop_sorted_spec s.buf ts hs s.buf.length 0 ((s.buf.length : Int) - 1) (-1)
      (by omega) (by omega) (by omega) (by omega) (by omega) (by omega) (by omega)

/-- On a sorted buffer receiving a new point no older than any buffered one,
push is exactly the specified trimming pipeline. -/
theorem push_eq_pushSpec (s : TimeSeries) (q : PricePoint) (hs : sortedByT s.buf)
    (hle : ∀ r ∈ s.buf, r.t ≤ q.t) :
    (s.push q).buf = pushSpec s q := by
  have hs1 : sortedByT (s.buf ++ [q]) := by
    rw [sortedByT, List.pairwise_append]
    refine ⟨hs, List.pairwise_singleton _ _, ?_⟩
    intro a ha b hb
    rw [List.mem_singleton] at hb
    subst hb
    exact hle a ha
  cases hage : s.maxAgeMs with
  | none => simp only [TimeSeries.push, pushSpec, hage]
  | some maxAge =>
      have hlen1 : 0 < (s.buf ++ [q]).length := by simp
      have hKle := takeWhile_length_le (fun r => decide (r.t < q.t - maxAge)) (s.buf ++ [q])
      have hloop := ageIdxLoop_sorted_spec (s.buf ++ [q]) (q.t - maxAge) hs1
        (s.buf ++ [q]).length 0 (((s.buf ++ [q]).length : Int) - 1) ((s.buf ++ [q]).length : Int)
        (by omega) (by omega) (by omega) (by omega) (by omega) (by omega) (by omega)
      have hdrop :
          (s.buf ++ [q]).drop
              ((s.buf ++ [q]).takeWhile (fun r => decide (r.t < q.t - maxAge))).length =
            (s.buf ++ [q]).filter (fun r => !(decide (r.t < q.t - maxAge))) := by
        rw [drop_takeWhile_length]
        exact sorted_dropWhile_eq_filter_not _ (ltMono (q.t - maxAge)) _ hs1
      have hbuf2 :
          (if ageIdxLoop (s.buf ++ [q]) (q.t - maxAge) 0 (((s.buf ++ [q]).length : Int) - 1)
                ((s.buf ++ [q]).length : Int) > 0 then
              (s.buf ++ [q]).drop
                (ageIdxLoop (s.buf ++ [q]) (q.t - maxAge) 0 (((s.buf ++ [q]).length : Int) - 1)
                  ((s.buf ++ [q]).length : Int)).toNat
            else s.buf ++ [q]) =
            (s.buf ++ [q]).filter (fun r => !(r.t < q.t - maxAge)) := by
        rw [hloop]
        by_cases hK : ((s.buf ++ [q]).takeWhile (fun r => decide (r.t < q.t - maxAge))).length = 0
        · rw [if_neg (by omega)]
          rw [hK] at hdrop
          simp only [List.drop_zero] at hdrop
          exact hdrop
        · rw [if_pos (by omega)]
          have htn :
              ((((s.buf ++ [q]).takeWhile
                    (fun r => decide (r.t < q.t - maxAge))).length : Int)).toNat =
                ((s.buf ++ [q]).takeWhile (fun r => decide (r.t < q.t - maxAge))).length := by
            omega
          rw [htn]
          exact hdrop
      simp only [TimeSeries.push, pushSpec, hage, hbuf2]

theorem push_maxPoints (s : TimeSeries) (q : PricePoint) :
    (s.push q).maxPoints = s.maxPoints := rfl

theorem push_maxAgeMs (s : TimeSeries) (q : PricePoint) :
    (s.push q).maxAgeMs = s.maxAgeMs := rfl

/-- Both trims only ever drop from the front, so the post-push buffer is a
sublist of the appended buffer whatever the binary search returns. -/
theorem push_buf_sublist (s : TimeSeries) (q : PricePoint) :
    (s.push q).buf.Sublist (s.buf ++ [q]) := by
  unfold TimeSeries.push
  have h2 : ∀ l : List PricePoint, l.Sublist (s.buf ++ [q]) →
      (if l.length > s.maxPoints then l.drop (l.length - s.maxPoints) else l).Sublist
        (s.buf ++ [q]) := by
    intro l hl
    split
    · exact (List.drop_sublist _ l).trans hl
    · exact hl
  cases hage : s.maxAgeMs with
  | none =>
      simp only [hage]
      exact h2 _ (List.Sublist.refl _)
  | some maxAge =>
      simp only [hage]
      apply h2
      split
      · exact List.drop_sublist _ _
      · exact List.Sublist.refl _

theorem pushAll_buf_sublist (ps : List PricePoint) :
    ∀ (s : TimeSeries), (pushAll s ps).buf.Sublist (s.buf ++ ps) := by
  induction ps with
  | nil => intro s; simp [pushAll]
  | cons q ps ih =>
      intro s
      have h1 : (pushAll s (q :: ps)).buf = (pushAll (s.push q) ps).buf := rfl
      rw [h1]
      have h2 := ih (s.push q)
      have h3 := (push_buf_sublist s q).append_right ps
      have h4 : (s.buf ++ [q]) ++ ps = s.buf ++ (q :: ps) := by simp
      rw [h4] at h3
      exact h2.trans h3

theorem pushAll_maxPoints (ps : List PricePoint) :
    ∀ (s : TimeSeries), (pushAll s ps).maxPoints = s.maxPoints := by
  induction ps with
  | nil => intro s; rfl
  | cons q ps ih =>
      intro s
      have h1 : pushAll s (q :: ps) = pushAll (s.push q) ps := rfl
      rw [h1, ih, push_maxPoints]

theorem pushAll_maxAgeMs (ps : List PricePoint) :
    ∀ (s : TimeSeries), (pushAll s ps).maxAgeMs = s.maxAgeMs := by
  induction ps with
  | nil => intro s; rfl
  | cons q ps ih =>
      intro s
      have h1 : pushAll s (q :: ps) = pushAll (s.push q) ps := rfl
      rw [h1, ih, push_maxAgeMs]

theorem drop_keeps_getLast? (l : List PricePoint) (k : Nat) (hk : k < l.length) :
    (l.drop k).getLast? = l.getLast? ∧ l.drop k ≠ [] := by
  constructor
  · rw [List.getLast?_eq_getElem?, List.getLast?_eq_getElem?, List.length_drop,
      List.getElem?_drop]
    congr 1
    omega
  · intro hnil
    have h1 := List.length_drop k l
    rw [hnil] at h1
    simp only [List.length_nil] at h1
    omega

theorem concat_getD_last (l : List PricePoint) (q : PricePoint) :
    (l ++ [q]).getD ((l ++ [q]).length - 1) dfltPt = q := by
  have hlen : (l ++ [q]).length = l.length + 1 := by simp
  rw [hlen]
  simp only [Nat.add_sub_cancel]
  rw [List.getD_eq_getElem _ _ (by simp)]
  exact List.getElem_concat_length l q l.length rfl (by simp)

/-- The newest point always survives a push when at least one point may be
kept and any configured age bound is non-negative. -/
theorem push_keeps_last (s : TimeSeries) (q : PricePoint) (hM : 1 ≤ s.maxPoints)
    (ha : ∀ x ∈ s.maxAgeMs, 0 ≤ x) :
    (s.push q).buf ≠ [] ∧ (s.push q).buf.getLast? = some q := by
  have hcount : ∀ l : List PricePoint, l ≠ [] → l.getLast? = some q →
      (if l.length > s.maxPoints then l.drop (l.length - s.maxPoints) else l) ≠ [] ∧
        (if l.length > s.maxPoints then l.drop (l.length - s.maxPoints) else l).getLast? =
          some q := by
    intro l hne hlast
    have hlpos : 0 < l.length := List.length_pos.mpr hne
    split
    · have hk : l.length - s.maxPoints < l.length := by omega
      have hd := drop_keeps_getLast? l (l.length - s.maxPoints) hk
      exact ⟨hd.2, hd.1.trans hlast⟩
    · exact ⟨hne, hlast⟩
  unfold TimeSeries.push
  cases hage : s.maxAgeMs with
  | none =>
      simp only [hage]
      exact hcount _ (by simp) (List.getLast?_concat _)
  | some maxAge =>
      have hapos : 0 ≤ maxAge := ha maxAge (by rw [hage]; rfl)
      simp only [hage]
      have hne1 : s.buf ++ [q] ≠ [] := by simp
      have hlen1 : 0 < (s.buf ++ [q]).length := by simp
      have hlast1 : ((s.buf ++ [q]).getD ((s.buf ++ [q]).length - 1) dfltPt).t ≥
          q.t - maxAge := by
        rw [concat_getD_last]
        omega
      have hloop := ageIdxLoop_keeps_last (s.buf ++ [q]) (q.t - maxAge) hlast1 hne1
        (s.buf ++ [q]).length 0 (((s.buf ++ [q]).length : Int) - 1) ((s.buf ++ [q]).length : Int)
        (by omega) (by omega) (by omega) (by omega) (by omega) (by omega) (by omega) (by omega)
      have hb2 : ∀ l2 : List PricePoint,
          l2 = (if ageIdxLoop (s.buf ++ [q]) (q.t - maxAge) 0
                  (((s.buf ++ [q]).length : Int) - 1) ((s.buf ++ [q]).length : Int) > 0 then
                (s.buf ++ [q]).drop
                  (ageIdxLoop (s.buf ++ [q]) (q.t - maxAge) 0
                    (((s.buf ++ [q]).length : Int) - 1) ((s.buf ++ [q]).length : Int)).toNat
              else s.buf ++ [q]) →
          l2 ≠ [] ∧ l2.getLast? = some q := by
        intro l2 hl2
        rw [hl2]
        split
        · have hk : (ageIdxLoop (s.buf ++ [q]) (q.t - maxAge) 0
              (((s.buf ++ [q]).length : Int) - 1) ((s.buf ++ [q]).length : Int)).toNat <
              (s.buf ++ [q]).length := by omega
          have hd := drop_keeps_getLast? _ _ hk
          exact ⟨hd.2, hd.1.trans (List.getLast?_concat _)⟩
        · exact ⟨hne1, List.getLast?_concat _⟩
      have hmain := hb2 _ rfl
      exact hcount _ hmain.1 hmain.2

/-! ## Bound-enforcement fold lemmas -/

theorem lastN_comp (M : Nat) (l r : List PricePoint) :
    lastN M (lastN M l ++ r) = lastN M (l ++ r) := by
  unfold lastN
  rw [← List.drop_append_of_le_length (by omega : l.length - M ≤ l.length)]
  rw [List.drop_drop]
  congr 1
  simp only [List.length_drop, List.length_append]
  omega

theorem push_none_buf (s : TimeSeries) (q : PricePoint) (hage : s.maxAgeMs = none) :
    (s.push q).buf = lastN s.maxPoints (s.buf ++ [q]) := by
  unfold TimeSeries.push lastN
  simp only [hage]
  split
  · rfl
  · have h0 : (s.buf ++ [q]).length - s.maxPoints = 0 := by omega
    rw [h0, List.drop_zero]

theorem pushAll_none (M : Nat) (ps : List PricePoint) :
    ∀ (s : TimeSeries), s.maxAgeMs = none → s.maxPoints = M → s.buf.length ≤ M →
      (pushAll s ps).buf = lastN M (s.buf ++ ps) := by
  induction ps with
  | nil =>
      intro s h1 h2 h3
      show s.buf = lastN M (s.buf ++ [])
      rw [List.append_nil]
      unfold lastN
      have h0 : s.buf.length - M = 0 := by omega
      rw [h0, List.drop_zero]
  | cons q ps ih =>
      intro s h1 h2 h3
      have hstep : pushAll s (q :: ps) = pushAll (s.push q) ps := rfl
      rw [hstep]
      have hpb := push_none_buf s q h1
      have hlen2 : (s.push q).buf.length ≤ M := by
        rw [hpb, h2]
        unfold lastN
        rw [List.length_drop]
        omega
      rw [ih (s.push q) (by rw [push_maxAgeMs]; exact h1) (by rw [push_maxPoints]; exact h2)
        hlen2]
      rw [hpb, h2, lastN_comp]
      congr 1
      simp

theorem pushAll_age (M : Nat) (a : Int) (ha : 0 ≤ a) (ps : List PricePoint) :
    sortedByT ps → ps.length ≤ M →
    (pushAll ⟨[], M, some a⟩ ps).buf =
      ps.filter (fun r => !(r.t < (ps.getLast?.getD dfltPt).t - a)) := by
  induction ps using List.reverseRecOn with
  | nil => intro _ _; rfl
  | append_singleton ps q ih =>
      intro hs hlen
      have hsps : sortedByT ps := (List.pairwise_append.mp hs).1
      have hple : ∀ r ∈ ps, r.t ≤ q.t := by
        have h3 := (List.pairwise_append.mp hs).2.2
        intro r hr
        exact h3 r hr q (by simp)
      have hlast_le : ps ≠ [] → (ps.getLast?.getD dfltPt).t ≤ q.t := by
        intro hne
        cases hps : ps.getLast? with
        | none => exact absurd (List.getLast?_eq_none_iff.mp hps) hne
        | some x =>
            simp only [hps, Option.getD_some]
            exact hple x (getLast?_mem_of_eq hps)
      have hlen' : ps.length ≤ M := by
        simp only [List.length_append, List.length_singleton] at hlen
        omega
      have hstep : pushAll ⟨[], M, some a⟩ (ps ++ [q]) =
          (pushAll ⟨[], M, some a⟩ ps).push q := by
        unfold pushAll
        rw [List.foldl_append]
        rfl
      rw [hstep]
      have hbuf := ih hsps hlen'
      have hsbuf : sortedByT (pushAll ⟨[], M, some a⟩ ps).buf := by
        rw [hbuf]
        exact List.Pairwise.sublist (List.filter_sublist ps) hsps
      have hble : ∀ r ∈ (pushAll ⟨[], M, some a⟩ ps).buf, r.t ≤ q.t := by
        rw [hbuf]
        intro r hr
        exact hple r (List.mem_of_mem_filter hr)
      rw [push_eq_pushSpec _ q hsbuf hble]
      have hqpass : (!(decide (q.t < q.t - a))) = true := by
        simp only [Bool.not_eq_true', decide_eq_false_iff_not]
        omega
      have hagedeq :
          ((ps.filter (fun r => !(r.t < (ps.getLast?.getD dfltPt).t - a)) ++ [q]).filter
              (fun r => !(r.t < q.t - a))) =
            (ps ++ [q]).filter (fun r => !(r.t < q.t - a)) := by
        rw [List.filter_append, List.filter_append]
        have hq1 : List.filter (fun r => !(r.t < q.t - a)) [q] = [q] := by
          simp only [List.filter_cons, hqpass, if_true, List.filter_nil]
        rw [hq1, List.filter_filter]
        congr 1
        apply List.filter_congr
        intro x hx
        cases hcx : (!(decide (x.t < q.t - a))) with
        | false => simp
        | true =>
            simp only [Bool.true_and]
            have hle := hlast_le (List.ne_nil_of_mem hx)
            simp only [Bool.not_eq_true', decide_eq_false_iff_not] at hcx ⊢
            omega
      simp only [pushSpec, pushAll_maxAgeMs, pushAll_maxPoints, hbuf]
      rw [hagedeq]
      have hlen2 : ((ps ++ [q]).filter (fun r => !(r.t < q.t - a))).length ≤ M := by
        have := List.length_filter_le (fun r => !(decide (r.t < q.t - a))) (ps ++ [q])
        simp only [List.length_append, List.length_singleton] at this hlen ⊢
        omega
      rw [if_neg (by omega)]
      congr 1
      funext r
      rw [List.getLast?_concat]
      rfl

/-! ## Bucket aggregation correctness -/

theorem bucketFold_nil (b : Int) : bucketFold b [] = none := rfl

theorem bucketFold_append (b : Int) (ps : List PricePoint) (q : PricePoint) :
    bucketFold b (ps ++ [q]) =
      some (match bucketFold b ps with
            | none => newCandle b q.p
            | some c => updateCandle c q.p) := by
  unfold bucketFold
  rw [List.foldl_append]
  rfl

theorem bucketFold_none_iff (b : Int) (ps : List PricePoint) :
    bucketFold b ps = none ↔ ps = [] := by
  constructor
  · intro h
    by_contra hne
    induction ps using List.reverseRecOn with
    | nil => exact hne rfl
    | append_singleton ps q ih =>
        rw [bucketFold_append] at h
        exact Option.some_ne_none _ h
  · intro h
    rw [h]
    rfl

theorem bucketFold_t (b : Int) :
    ∀ (ps : List PricePoint) (c : Candle), bucketFold b ps = some c → c.t = b := by
  intro ps
  induction ps using List.reverseRecOn with
  | nil =>
      intro c h
      rw [bucketFold_nil] at h
      exact absurd h (Option.noConfusion)
  | append_singleton ps q ih =>
      intro c h
      rw [bucketFold_append] at h
      cases hps : bucketFold b ps with
      | none =>
          rw [hps] at h
          have : c = newCandle b q.p := by
            injection h with h'
            exact h'.symm
          rw [this]
          rfl
      | some c' =>
          rw [hps] at h
          have hc : c = updateCandle c' q.p := by
            injection h with h'
            exact h'.symm
          rw [hc]
          show c'.t = b
          exact ih c' hps

theorem bucketFold_open (b : Int) :
    ∀ (ps : List PricePoint) (c : Candle), bucketFold b ps = some c →
      c.«open» = (ps.head?.getD dfltPt).p := by
  intro ps
  induction ps using List.reverseRecOn with
  | nil =>
      intro c h
      rw [bucketFold_nil] at h
      exact absurd h (Option.noConfusion)
  | append_singleton ps q ih =>
      intro c h
      rw [bucketFold_append] at h
      cases hps : bucketFold b ps with
      | none =>
          rw [hps] at h
          have hnil : ps = [] := (bucketFold_none_iff b ps).mp hps
          have : c = newCandle b q.p := by
            injection h with h'
            exact h'.symm
          rw [this, hnil]
          rfl
      | some c' =>
          rw [hps] at h
          have hc : c = updateCandle c' q.p := by
            injection h with h'
            exact h'.symm
          have hne : ps ≠ [] := by
            intro hnil
            rw [hnil] at hps
            exact Option.noConfusion hps
          rw [hc]
          show c'.«open» = _
          rw [ih c' hps]
          congr 2
          cases ps with
          | nil => exact absurd rfl hne
          | cons a l => simp

theorem bucketFold_close (b : Int) :
    ∀ (ps : List PricePoint) (c : Candle), bucketFold b ps = some c →
      c.close = (ps.getLast?.getD dfltPt).p := by
  intro ps
  induction ps using List.reverseRecOn with
  | nil =>
      intro c h
      rw [bucketFold_nil] at h
      exact absurd h (Option.noConfusion)
  | append_singleton ps q ih =>
      intro c h
      rw [bucketFold_append] at h
      rw [List.getLast?_concat, Option.getD_some]
      cases hps : bucketFold b ps with
      | none =>
          rw [hps] at h
          have : c = newCandle b q.p := by
            injection h with h'
            exact h'.symm
          rw [this]
          rfl
      | some c' =>
          rw [hps] at h
          have : c = updateCandle c' q.p := by
            injection h with h'
            exact h'.symm
          rw [this]
          rfl

theorem bucketFold_high (b : Int) :
    ∀ (ps : List PricePoint) (c : Candle), bucketFold b ps = some c →
      (∀ q ∈ ps, q.p ≤ c.high) ∧ ∃ q ∈ ps, c.high = q.p := by
  intro ps
  induction ps using List.reverseRecOn with
  | nil =>
      intro c h
      rw [bucketFold_nil] at h
      exact absurd h (Option.noConfusion)
  | append_singleton ps q ih =>
      intro c h
      rw [bucketFold_append] at h
      cases hps : bucketFold b ps with
      | none =>
          rw [hps] at h
          have hnil : ps = [] := (bucketFold_none_iff b ps).mp hps
          have hc : c = newCandle b q.p := by
            injection h with h'
            exact h'.symm
          subst hc
          subst hnil
          constructor
          · intro r hr
            simp only [List.nil_append, List.mem_singleton] at hr
            rw [hr]
            exact le_rfl
          · exact ⟨q, by simp, rfl⟩
      | some c' =>
          rw [hps] at h
          have hc : c = updateCandle c' q.p := by
            injection h with h'
            exact h'.symm
          subst hc
          obtain ⟨hub, hwit⟩ := ih c' hps
          constructor
          · intro r hr
            rw [List.mem_append] at hr
            show r.p ≤ max c'.high q.p
            cases hr with
            | inl hr => exact le_trans (hub r hr) (le_max_left _ _)
            | inr hr =>
                rw [List.mem_singleton] at hr
                rw [hr]
                exact le_max_right _ _
          · show ∃ r ∈ ps ++ [q], max c'.high q.p = r.p
            cases le_total c'.high q.p with
            | inl hle => exact ⟨q, by simp, max_eq_right hle⟩
            | inr hle =>
                obtain ⟨r, hrm, hre⟩ := hwit
                exact ⟨r, by simp [hrm], by rw [max_eq_left hle]; exact hre⟩

theorem bucketFold_low (b : Int) :
    ∀ (ps : List PricePoint) (c : Candle), bucketFold b ps = some c →
      (∀ q ∈ ps, c.low ≤ q.p) ∧ ∃ q ∈ ps, c.low = q.p := by
  intro ps
  induction ps using List.reverseRecOn with
  | nil =>
      intro c h
      rw [bucketFold_nil] at h
      exact absurd h (Option.noConfusion)
  | append_singleton ps q ih =>
      intro c h
      rw [bucketFold_append] at h
      cases hps : bucketFold b ps with
      | none =>
          rw [hps] at h
          have hnil : ps = [] := (bucketFold_none_iff b ps).mp hps
          have hc : c = newCandle b q.p := by
            injection h with h'
            exact h'.symm
          subst hc
          subst hnil
          constructor
          · intro r hr
            simp only [List.nil_append, List.mem_singleton] at hr
            rw [hr]
            exact le_rfl
          · exact ⟨q, by simp, rfl⟩
      | some c' =>
          rw [hps] at h
          have hc : c = updateCandle c' q.p := by
            injection h with h'
            exact h'.symm
          subst hc
          obtain ⟨hlb, hwit⟩ := ih c' hps
          constructor
          · intro r hr
            rw [List.mem_append] at hr
            show min c'.low q.p ≤ r.p
            cases hr with
            | inl hr => exact le_trans (min_le_left _ _) (hlb r hr)
            | inr hr =>
                rw [List.mem_singleton] at hr
                rw [hr]
                exact min_le_right _ _
          · show ∃ r ∈ ps ++ [q], min c'.low q.p = r.p
            cases le_total c'.low q.p with
            | inl hle =>
                obtain ⟨r, hrm, hre⟩ := hwit
                exact ⟨r, by simp [hrm], by rw [min_eq_left hle]; exact hre⟩
            | inr hle => exact ⟨q, by simp, min_eq_right hle⟩

theorem updateCandle_t (c : Candle) (p : Rat) : (updateCandle c p).t = c.t := rfl

theorem insertPoint_keys_subset (b : Int) (p : Rat) :
    ∀ (m : List Candle) (k : Int), k ∈ keysOf (insertPoint m b p) → k ∈ keysOf m ∨ k = b := by
  intro m
  induction m with
  | nil =>
      intro k hk
      simp only [insertPoint, keysOf, List.map_cons, List.map_nil, List.mem_singleton] at hk
      right
      exact hk
  | cons c rest ih =>
      intro k hk
      simp only [insertPoint] at hk
      by_cases hc : c.t = b
      · rw [if_pos hc] at hk
        simp only [keysOf, List.map_cons, List.mem_cons, updateCandle_t] at hk ⊢
        exact Or.inl hk
      · rw [if_neg hc] at hk
        simp only [keysOf, List.map_cons, List.mem_cons] at hk ⊢
        cases hk with
        | inl h => exact Or.inl (Or.inl h)
        | inr h =>
            cases ih k h with
            | inl h2 => exact Or.inl (Or.inr h2)
            | inr h2 => exact Or.inr h2

theorem insertPoint_keys_superset (b : Int) (p : Rat) :
    ∀ (m : List Candle) (k : Int), k ∈ keysOf m → k ∈ keysOf (insertPoint m b p) := by
  intro m
  induction m with
  | nil => intro k hk; simp [keysOf] at hk
  | cons c rest ih =>
      intro k hk
      simp only [keysOf, List.map_cons, List.mem_cons] at hk
      simp only [insertPoint]
      by_cases hc : c.t = b
      · rw [if_pos hc]
        simp only [keysOf, List.map_cons, List.mem_cons, updateCandle_t]
        exact hk
      · rw [if_neg hc]
        simp only [keysOf, List.map_cons, List.mem_cons]
        cases hk with
        | inl h => exact Or.inl h
        | inr h => exact Or.inr (ih k h)

theorem insertPoint_self_mem (b : Int) (p : Rat) :
    ∀ (m : List Candle), b ∈ keysOf (insertPoint m b p) := by
  intro m
  induction m with
  | nil => simp [insertPoint, keysOf, newCandle]
  | cons c rest ih =>
      simp only [insertPoint]
      by_cases hc : c.t = b
      · rw [if_pos hc]
        simp only [keysOf, List.map_cons, List.mem_cons, updateCandle_t]
        exact Or.inl hc.symm
      · rw [if_neg hc]
        simp only [keysOf, List.map_cons, List.mem_cons]
        exact Or.inr ih

theorem filter_append_snoc (i b : Int) (done : List PricePoint) (q : PricePoint) :
    (done ++ [q]).filter (fbkt i b) =
      done.filter (fbkt i b) ++ (if bucketStartOf i q.t = b then [q] else []) := by
  rw [List.filter_append]
  congr 1
  by_cases hb : bucketStartOf i q.t = b
  · simp [fbkt, hb]
  · simp [fbkt, hb]

/-- Inserting one point preserves the per-bucket OHLC invariant and key
distinctness. -/
theorem bucketInv_step (i : Int) (done : List PricePoint) (q : PricePoint) :
    ∀ (m : List Candle),
      (∀ c ∈ m, bucketFold c.t (done.filter (fbkt i c.t)) = some c) →
      m.Pairwise (fun c d => c.t ≠ d.t) →
      ((∀ c ∈ m, c.t ≠ bucketStartOf i q.t) →
        done.filter (fbkt i (bucketStartOf i q.t)) = []) →
      (∀ c ∈ insertPoint m (bucketStartOf i q.t) q.p,
          bucketFold c.t ((done ++ [q]).filter (fbkt i c.t)) = some c) ∧
      (insertPoint m (bucketStartOf i q.t) q.p).Pairwise (fun c d => c.t ≠ d.t) := by
  intro m
  induction m with
  | nil =>
      intro _ _ hmiss
      constructor
      · intro c hc
        simp only [insertPoint, List.mem_singleton] at hc
        subst hc
        have hnc : (newCandle (bucketStartOf i q.t) q.p).t = bucketStartOf i q.t := rfl
        rw [hnc, filter_append_snoc, hmiss (by intro c hc; simp at hc), if_pos rfl,
          List.nil_append]
        rfl
      · simp [insertPoint]
  | cons c rest ih =>
      intro h1 h2 hmiss
      obtain ⟨hhead, htail⟩ := List.pairwise_cons.mp h2
      by_cases hc : c.t = bucketStartOf i q.t
      · simp only [insertPoint, if_pos hc]
        constructor
        · intro c' hc'
          rw [List.mem_cons] at hc'
          cases hc' with
          | inl he =>
              subst he
              show bucketFold (updateCandle c q.p).t _ = _
              rw [updateCandle_t, hc, filter_append_snoc, if_pos rfl]
              rw [bucketFold_append]
              have hcc := h1 c (by simp)
              rw [hc] at hcc
              rw [hcc]
          | inr hmem =>
              have hne : c'.t ≠ bucketStartOf i q.t := by
                intro he
                exact (hhead c' hmem) (by rw [hc, he])
              rw [filter_append_snoc, if_neg (fun h => hne h.symm), List.append_nil]
              exact h1 c' (by simp [hmem])
        · rw [List.pairwise_cons]
          refine ⟨?_, htail⟩
          intro d hd
          rw [updateCandle_t]
          exact hhead d hd
      · simp only [insertPoint, if_neg hc]
        have hmiss' : (∀ c' ∈ rest, c'.t ≠ bucketStartOf i q.t) →
            done.filter (fbkt i (bucketStartOf i q.t)) = [] := by
          intro h
          apply hmiss
          intro c' hc'
          rw [List.mem_cons] at hc'
          cases hc' with
          | inl he => rw [he]; exact hc
          | inr hmem => exact h c' hmem
        have hrest := ih (fun c' hc' => h1 c' (by simp [hc'])) htail hmiss'
        constructor
        · intro c' hc'
          rw [List.mem_cons] at hc'
          cases hc' with
          | inl he =>
              subst he
              rw [filter_append_snoc, if_neg (fun h => hc h.symm), List.append_nil]
              exact h1 c' (by simp)
          | inr hmem => exact hrest.1 c' hmem
        · rw [List.pairwise_cons]
          refine ⟨?_, hrest.2⟩
          intro d hd
          have hdk : d.t ∈ keysOf (insertPoint rest (bucketStartOf i q.t) q.p) := by
            rw [keysOf, List.mem_map]
            exact ⟨d, hd, rfl⟩
          cases insertPoint_keys_subset _ _ rest d.t hdk with
          | inl h =>
              rw [keysOf, List.mem_map] at h
              obtain ⟨d', hd', hdd⟩ := h
              rw [← hdd]
              exact hhead d' hd'
          | inr h => rw [h]; exact hc

/-- The fold invariant for the whole bucketMap loop. -/
theorem bucketize_go_inv (i : Int) :
    ∀ (l done : List PricePoint) (m : List Candle),
      (∀ c ∈ m, bucketFold c.t (done.filter (fbkt i c.t)) = some c) →
      m.Pairwise (fun c d => c.t ≠ d.t) →
      (∀ b : Int, (∀ c ∈ m, c.t ≠ b) → done.filter (fbkt i b) = []) →
      (∀ c ∈ l.foldl (fun m q => insertPoint m (bucketStartOf i q.t) q.p) m,
          bucketFold c.t ((done ++ l).filter (fbkt i c.t)) = some c) ∧
      (l.foldl (fun m q => insertPoint m (bucketStartOf i q.t) q.p) m).Pairwise
        (fun c d => c.t ≠ d.t) ∧
      (∀ b : Int,
        (∀ c ∈ l.foldl (fun m q => insertPoint m (bucketStartOf i q.t) q.p) m, c.t ≠ b) →
        (done ++ l).filter (fbkt i b) = []) := by
  intro l
  induction l with
  | nil =>
      intro done m h1 h2 h3
      rw [List.append_nil]
      exact ⟨h1, h2, h3⟩
  | cons q l ih =>
      intro done m h1 h2 h3
      have hstep := bucketInv_step i done q m h1 h2 (h3 _)
      have h3' : ∀ b : Int, (∀ c ∈ insertPoint m (bucketStartOf i q.t) q.p, c.t ≠ b) →
          (done ++ [q]).filter (fbkt i b) = [] := by
        intro b hb
        have hbq : b ≠ bucketStartOf i q.t := by
          have hself := insertPoint_self_mem (bucketStartOf i q.t) q.p m
          rw [keysOf, List.mem_map] at hself
          obtain ⟨cx, hcmem, hct⟩ := hself
          intro hbeq
          exact hb cx hcmem (by rw [hct, hbeq])
        have hmk : ∀ c ∈ m, c.t ≠ b := by
          intro c hcm hce
          have hck : c.t ∈ keysOf (insertPoint m (bucketStartOf i q.t) q.p) :=
            insertPoint_keys_superset _ _ m c.t
              (by rw [keysOf]; exact List.mem_map_of_mem _ hcm)
          rw [keysOf, List.mem_map] at hck
          obtain ⟨c', hc'm, hc't⟩ := hck
          exact hb c' hc'm (by rw [hc't, hce])
        rw [filter_append_snoc, h3 b hmk, if_neg (fun h => hbq h.symm)]
        rfl
      have hmain := ih (done ++ [q]) (insertPoint m (bucketStartOf i q.t) q.p)
        hstep.1 hstep.2 h3'
      have hre : (done ++ [q]) ++ l = done ++ (q :: l) := by
        rw [List.append_assoc, List.singleton_append]
      rw [hre] at hmain
      exact hmain

/-- Every candle in the bucketMap is exactly the OHLC fold of its bucket's
points (in processing order), and keys are pairwise distinct. -/
theorem bucketize_spec (i : Int) (l : List PricePoint) :
    (∀ c ∈ bucketize i l, bucketFold c.t (l.filter (fbkt i c.t)) = some c) ∧
    (bucketize i l).Pairwise (fun c d => c.t ≠ d.t) := by
  have h := bucketize_go_inv i l [] []
    (by intro c hc; simp at hc) (by simp) (by intro b _; rfl)
  rw [List.nil_append] at h
  exact ⟨h.1, h.2.1⟩

theorem bucketize_key_from_point (i : Int) (l : List PricePoint) :
    ∀ c ∈ bucketize i l, ∃ q ∈ l, bucketStartOf i q.t = c.t := by
  intro c hc
  have h := (bucketize_spec i l).1 c hc
  by_contra hno
  push_neg at hno
  have hnil : l.filter (fbkt i c.t) = [] := by
    rw [List.filter_eq_nil_iff]
    intro q hq hfq
    simp only [fbkt, beq_iff_eq] at hfq
    exact hno q hq hfq
  rw [hnil, bucketFold_nil] at h
  exact Option.noConfusion h

/-! ## Sorting and the sparse candle list -/

theorem sortPoints_sorted (points : List PricePoint) : sortedByT (sortPoints points) := by
  have h := @List.sorted_mergeSort PricePoint ptLE
    (by intro a b c hab hbc; simp only [ptLE, decide_eq_true_eq] at *; omega)
    (by intro a b; simp only [ptLE, Bool.or_eq_true, decide_eq_true_eq]; omega)
    points
  exact h.imp (by intro a b hab; simpa [ptLE] using hab)

theorem sortPoints_perm (points : List PricePoint) : (sortPoints points).Perm points :=
  List.mergeSort_perm points ptLE

theorem buildCandles_false_eq (points : List PricePoint) (i : Int) (hi : 0 < i)
    (hne : points ≠ []) :
    buildCandles points i false = (bucketize i (sortPoints points)).mergeSort candleLE := by
  unfold buildCandles
  rw [if_neg (by omega), if_neg (by simp [hne])]
  simp

theorem buildCandles_true_eq (points : List PricePoint) (i : Int) :
    buildCandles points i true = gapFill (buildCandles points i false) i := by
  unfold buildCandles
  by_cases h1 : i ≤ 0
  · rw [if_pos h1, if_pos h1]
    rfl
  rw [if_neg h1, if_neg h1]
  by_cases h2 : points.isEmpty
  · rw [if_pos h2, if_pos h2]
    rfl
  rw [if_neg h2, if_neg h2]
  simp only [Bool.not_true, Bool.false_or, Bool.not_false, Bool.true_or, if_true]
  cases hcs : (bucketize i (sortPoints points)).mergeSort candleLE with
  | nil => rfl
  | cons c rest => simp

/-- Fields of every sparse (gap-fill disabled) candle: its bucket key is a
multiple of the interval and stems from an input point, and the candle is the
OHLC fold of its bucket. -/
theorem sparse_mem_spec (points : List PricePoint) (i : Int) (hi : 0 < i) (hne : points ≠ []) :
    ∀ c ∈ buildCandles points i false,
      bucketFold c.t ((sortPoints points).filter (fbkt i c.t)) = some c ∧
      i ∣ c.t ∧ ∃ q ∈ points, bucketStartOf i q.t = c.t := by
  intro c hc
  rw [buildCandles_false_eq points i hi hne] at hc
  have hmem : c ∈ bucketize i (sortPoints points) :=
    (List.mergeSort_perm _ candleLE).mem_iff.mp hc
  refine ⟨(bucketize_spec i (sortPoints points)).1 c hmem, ?_, ?_⟩
  · obtain ⟨q, _, hq⟩ := bucketize_key_from_point i (sortPoints points) c hmem
    rw [← hq]
    exact dvd_mul_left i (q.t.fdiv i)
  · obtain ⟨q, hqm, hq⟩ := bucketize_key_from_point i (sortPoints points) c hmem
    exact ⟨q, (sortPoints_perm points).mem_iff.mp hqm, hq⟩

/-- The sparse candle list is strictly ascending in bucket key. -/
theorem sparse_strict_sorted (points : List PricePoint) (i : Int) (hi : 0 < i)
    (hne : points ≠ []) :
    (buildCandles points i false).Pairwise (fun a b => a.t < b.t) := by
  rw [buildCandles_false_eq points i hi hne]
  have hperm := List.mergeSort_perm (bucketize i (sortPoints points)) candleLE
  have hne2 : ((bucketize i (sortPoints points)).mergeSort candleLE).Pairwise
      (fun a b : Candle => a.t ≠ b.t) := by
    rw [List.Perm.pairwise_iff (by intro x y h; exact h.symm) hperm]
    exact (bucketize_spec i (sortPoints points)).2
  have hle : ((bucketize i (sortPoints points)).mergeSort candleLE).Pairwise
      (fun a b : Candle => a.t ≤ b.t) := by
    have h := @List.sorted_mergeSort Candle candleLE
      (by intro a b c hab hbc; simp only [candleLE, decide_eq_true_eq] at *; omega)
      (by intro a b; simp only [candleLE, Bool.or_eq_true, decide_eq_true_eq]; omega)
      (bucketize i (sortPoints points))
    exact h.imp (by intro a b hab; simpa [candleLE] using hab)
  exact (hle.and hne2).imp (by intro a b hab; omega)

/-! ## Gap filling -/

theorem fillForward_mem (e stop i : Int) (pr : Rat) :
    ∀ x ∈ fillForward e stop i pr,
      (∃ m : ℕ, x.t = e + m * i) ∧ x.t < stop ∧
        x = ⟨x.t, pr, pr, pr, pr⟩ := by
  induction e, stop, i, pr using fillForward.induct with
  | case1 e stop i pr hguard ih =>
      intro x hx
      rw [fillForward, dif_pos hguard] at hx
      rw [List.mem_cons] at hx
      cases hx with
      | inl he =>
          subst he
          exact ⟨⟨0, by push_cast; ring⟩, hguard.2, rfl⟩
      | inr hmem =>
          obtain ⟨⟨m, hm⟩, hlt, hshape⟩ := ih x hmem
          refine ⟨⟨m + 1, ?_⟩, hlt, hshape⟩
          rw [hm]
          push_cast
          ring
  | case2 e stop i pr hguard =>
      intro x hx
      rw [fillForward, dif_neg hguard] at hx
      exact absurd hx (List.not_mem_nil x)

theorem fillForward_cover (i : Int) (hi : 0 < i) (stop : Int) (pr : Rat) :
    ∀ (m : ℕ) (e : Int), e + m * i < stop →
      (⟨e + m * i, pr, pr, pr, pr⟩ : Candle) ∈ fillForward e stop i pr := by
  intro m
  induction m with
  | zero =>
      intro e he
      have h0 : e + (0 : ℕ) * i = e := by push_cast; ring
      rw [h0] at he ⊢
      rw [fillForward, dif_pos ⟨hi, he⟩]
      exact List.mem_cons_self _ _
  | succ m ih =>
      intro e he
      have hpos : (0 : Int) < ((m : Int) + 1) * i := by positivity
      have he2 : e < stop := by push_cast at he; nlinarith
      rw [fillForward, dif_pos ⟨hi, he2⟩]
      apply List.mem_cons_of_mem
      have harith : e + i + (m : ℕ) * i = e + ((m : ℕ) + 1 : ℕ) * i := by push_cast; ring
      have := ih (e + i) (by rw [harith]; exact he)
      rw [harith] at this
      exact this

theorem fillForward_seg (i : Int) (hi : 0 < i) (stop : Int) (pr : Rat) :
    ∀ (fuel : ℕ) (last : Candle), (stop - last.t).toNat ≤ fuel →
      last.t < stop → i ∣ (stop - last.t) →
      List.Chain' (fun a b => a.t < b.t ∧ b.t ≤ a.t + i)
          (last :: fillForward (last.t + i) stop i pr) ∧
      ∃ l, (last :: fillForward (last.t + i) stop i pr).getLast? = some l ∧
        stop ≤ l.t + i ∧ l.t < stop := by
  intro fuel
  induction fuel with
  | zero =>
      intro last hfuel hlt _
      omega
  | succ n ih =>
      intro last hfuel hlt hdvd
      by_cases hnext : last.t + i < stop
      · rw [fillForward, dif_pos ⟨hi, hnext⟩]
        have hrec := ih (⟨last.t + i, pr, pr, pr, pr⟩ : Candle)
          (show (stop - (last.t + i)).toNat ≤ n by omega)
          (show last.t + i < stop from hnext)
          (show i ∣ stop - (last.t + i) by
            obtain ⟨k, hk⟩ := hdvd
            exact ⟨k - 1, by rw [mul_sub, ← hk]; ring⟩)
        obtain ⟨hchain, l, hl, hl1, hl2⟩ := hrec
        constructor
        · rw [List.chain'_cons]
          refine ⟨⟨?_, ?_⟩, hchain⟩
          · show last.t < last.t + i
            omega
          · show last.t + i ≤ last.t + i
            omega
        · rw [List.getLast?_cons_cons]
          exact ⟨l, hl, hl1, hl2⟩
      · rw [fillForward, dif_neg (by intro hq; exact hnext hq.2)]
        refine ⟨List.chain'_singleton _, last, rfl, by omega, hlt⟩

theorem gapFill_head? (i : Int) (c : Candle) (cs : List Candle) :
    (gapFill (c :: cs) i).head? = some c := by
  cases cs with
  | nil => rfl
  | cons next rest => rfl

theorem gapFill_chain (i : Int) (hi : 0 < i) :
    ∀ (cs : List Candle), cs.Pairwise (fun a b => a.t < b.t) → (∀ c ∈ cs, i ∣ c.t) →
      List.Chain' (fun a b => a.t < b.t ∧ b.t ≤ a.t + i) (gapFill cs i) := by
  intro cs
  induction cs with
  | nil => intro _ _; exact List.chain'_nil
  | cons c rest ih =>
      intro hs hd
      cases rest with
      | nil => exact List.chain'_singleton _
      | cons next rest' =>
          have hcn : c.t < next.t := (List.pairwise_cons.mp hs).1 next (by simp)
          have hdvd : i ∣ (next.t - c.t) := by
            have h1 : i ∣ c.t := hd c (by simp)
            have h2 : i ∣ next.t := hd next (by simp)
            exact dvd_sub h2 h1
          have hseg := fillForward_seg i hi next.t c.close (next.t - c.t).toNat c
            (by omega) hcn hdvd
          obtain ⟨hchain1, l, hl, hl1, hl2⟩ := hseg
          have hrest := ih (List.pairwise_cons.mp hs).2 (by intro x hx; exact hd x (by simp [hx]))
          show List.Chain' _ (c :: (fillForward (c.t + i) next.t i c.close ++
            gapFill (next :: rest') i))
          have hassoc : c :: (fillForward (c.t + i) next.t i c.close ++
              gapFill (next :: rest') i) =
              (c :: fillForward (c.t + i) next.t i c.close) ++ gapFill (next :: rest') i := by
            simp
          rw [hassoc, List.chain'_append]
          refine ⟨hchain1, hrest, ?_⟩
          intro x hx y hy
          rw [hl] at hx
          rw [gapFill_head? i next rest'] at hy
          rw [Option.mem_def] at hx hy
          injection hx with hx
          injection hy with hy
          subst hx
          subst hy
          exact ⟨hl2, hl1⟩

theorem gapFill_mem_orig (i : Int) :
    ∀ (cs : List Candle), ∀ c ∈ cs, c ∈ gapFill cs i := by
  intro cs
  induction cs with
  | nil => intro c hc; exact absurd hc (List.not_mem_nil c)
  | cons c rest ih =>
      intro x hx
      cases rest with
      | nil =>
          rw [List.mem_singleton] at hx
          subst hx
          exact List.mem_singleton.mpr rfl
      | cons next rest' =>
          rw [List.mem_cons] at hx
          show x ∈ c :: (_ ++ gapFill (next :: rest') i)
          cases hx with
          | inl he => rw [he]; exact List.mem_cons_self _ _
          | inr hmem =>
              apply List.mem_cons_of_mem
              apply List.mem_append_right
              exact ih x hmem

theorem gapFill_dvd (i : Int) :
    ∀ (cs : List Candle), (∀ c ∈ cs, i ∣ c.t) → ∀ x ∈ gapFill cs i, i ∣ x.t := by
  intro cs
  induction cs with
  | nil => intro _ x hx; exact absurd hx (List.not_mem_nil x)
  | cons c rest ih =>
      intro hd x hx
      cases rest with
      | nil =>
          have hx2 : x ∈ [c] := hx
          rw [List.mem_singleton] at hx2
          rw [hx2]
          exact hd c (by simp)
      | cons next rest' =>
          have hx' : x ∈ c :: (fillForward (c.t + i) next.t i c.close ++
            gapFill (next :: rest') i) := hx
          rw [List.mem_cons, List.mem_append] at hx'
          rcases hx' with he | hfill | hrest
          · rw [he]; exact hd c (by simp)
          · obtain ⟨⟨m, hm⟩, _, _⟩ := fillForward_mem _ _ _ _ x hfill
            rw [hm]
            have h1 : i ∣ c.t := hd c (by simp)
            exact dvd_add (dvd_add h1 (dvd_refl i)) (Dvd.intro_left _ rfl)
          · exact ih (by intro y hy; exact hd y (by simp [hy])) x hrest

theorem gapFill_ub (i : Int) (B : Int) :
    ∀ (cs : List Candle), (∀ c ∈ cs, c.t ≤ B) → ∀ x ∈ gapFill cs i, x.t ≤ B := by
  intro cs
  induction cs with
  | nil => intro _ x hx; exact absurd hx (List.not_mem_nil x)
  | cons c rest ih =>
      intro hd x hx
      cases rest with
      | nil =>
          have hx2 : x ∈ [c] := hx
          rw [List.mem_singleton] at hx2
          rw [hx2]
          exact hd c (by simp)
      | cons next rest' =>
          have hx' : x ∈ c :: (fillForward (c.t + i) next.t i c.close ++
            gapFill (next :: rest') i) := hx
          rw [List.mem_cons, List.mem_append] at hx'
          rcases hx' with he | hfill | hrest
          · rw [he]; exact hd c (by simp)
          · obtain ⟨_, hlt, _⟩ := fillForward_mem _ _ _ _ x hfill
            have : next.t ≤ B := hd next (by simp)
            omega
          · exact ih (by intro y hy; exact hd y (by simp [hy])) x hrest

theorem gapFill_ne_nil (i : Int) (c : Candle) (cs : List Candle) :
    gapFill (c :: cs) i ≠ [] := by
  intro h
  have := gapFill_head? i c cs
  rw [h] at this
  exact Option.noConfusion this

theorem gapFill_getLast? (i : Int) :
    ∀ (cs : List Candle), (gapFill cs i).getLast? = cs.getLast? := by
  intro cs
  induction cs with
  | nil => rfl
  | cons c rest ih =>
      cases rest with
      | nil => rfl
      | cons next rest' =>
          have hYne : gapFill (next :: rest') i ≠ [] := gapFill_ne_nil i next rest'
          obtain ⟨y, hy⟩ : ∃ y, (gapFill (next :: rest') i).getLast? = some y := by
            cases h : (gapFill (next :: rest') i).getLast? with
            | none => exact absurd (List.getLast?_eq_none_iff.mp h) hYne
            | some y => exact ⟨y, rfl⟩
          show (c :: (fillForward (c.t + i) next.t i c.close ++
            gapFill (next :: rest') i)).getLast? = (c :: next :: rest').getLast?
          have hL : c :: (fillForward (c.t + i) next.t i c.close ++
              gapFill (next :: rest') i) =
              [c] ++ (fillForward (c.t + i) next.t i c.close ++
                gapFill (next :: rest') i) := rfl
          rw [hL, List.getLast?_append, List.getLast?_append, hy]
          show some y = (c :: next :: rest').getLast?
          rw [List.getLast?_cons_cons, ← ih, hy]

/-! ## Forward extension -/

theorem extendForward_shape (i : Int) (stop : Int) :
    ∀ (fuel : ℕ) (t : Int) (last : Candle), (stop + 1 - t).toNat ≤ fuel →
      ∀ x ∈ extendForward t stop i last,
        x = ⟨x.t, last.close, last.close, last.close, last.close⟩ := by
  intro fuel
  induction fuel with
  | zero =>
      intro t last hf x hx
      rw [extendForward, dif_neg (by rintro ⟨h1, h2⟩; omega)] at hx
      exact absurd hx (List.not_mem_nil x)
  | succ n ih =>
      intro t last hf x hx
      rw [extendForward] at hx
      by_cases hg : 0 < i ∧ t ≤ stop
      · rw [dif_pos hg] at hx
        rw [List.mem_cons] at hx
        cases hx with
        | inl he => rw [he]
        | inr hmem =>
            have hstep := ih (t + i) ⟨t, last.close, last.close, last.close, last.close⟩
              (by omega) x hmem
            exact hstep
      · rw [dif_neg hg] at hx
        exact absurd hx (List.not_mem_nil x)

theorem extendForward_last (i : Int) (hi : 0 < i) (stop : Int) :
    ∀ (fuel : ℕ) (last : Candle), (stop - last.t).toNat ≤ fuel →
      last.t ≤ stop → i ∣ (stop - last.t) →
      ∃ l, (last :: extendForward (last.t + i) stop i last).getLast? = some l ∧
        l.t = stop := by
  intro fuel
  induction fuel with
  | zero =>
      intro last hf hle hdvd
      have heq : last.t = stop := by omega
      rw [extendForward, dif_neg (by rintro ⟨h1, h2⟩; omega)]
      exact ⟨last, rfl, heq⟩
  | succ n ih =>
      intro last hf hle hdvd
      by_cases heq : last.t = stop
      · rw [extendForward, dif_neg (by rintro ⟨h1, h2⟩; omega)]
        exact ⟨last, rfl, heq⟩
      · have hlt : last.t < stop := by omega
        have hge : i ≤ stop - last.t := Int.le_of_dvd (by omega) hdvd
        rw [extendForward, dif_pos ⟨hi, by omega⟩]
        have hrec := ih (⟨last.t + i, last.close, last.close, last.close, last.close⟩ : Candle)
          (show (stop - (last.t + i)).toNat ≤ n by omega)
          (show last.t + i ≤ stop by omega)
          (show i ∣ stop - (last.t + i) by
            obtain ⟨k, hk⟩ := hdvd
            exact ⟨k - 1, by rw [mul_sub, ← hk]; ring⟩)
        obtain ⟨l, hl, hlt2⟩ := hrec
        refine ⟨l, ?_, hlt2⟩
        rw [List.getLast?_cons_cons]
        exact hl

/-! ## Facts about the default (gap-filled) output -/

theorem bucketStartOf_mono (i : Int) (hi : 0 < i) {a b : Int} (h : a ≤ b) :
    bucketStartOf i a ≤ bucketStartOf i b := by
  unfold bucketStartOf
  rw [Int.fdiv_eq_ediv _ (le_of_lt hi), Int.fdiv_eq_ediv _ (le_of_lt hi)]
  exact mul_le_mul_of_nonneg_right (Int.ediv_le_ediv hi h) (le_of_lt hi)

theorem bucketStartOf_dvd (i t : Int) : i ∣ bucketStartOf i t :=
  dvd_mul_left i (t.fdiv i)

theorem buildCandles_nonpos (points : List PricePoint) (i : Int) (h : i ≤ 0) (fg : Bool) :
    buildCandles points i fg = [] := by
  unfold buildCandles
  rw [if_pos h]

theorem buildCandles_nil (i : Int) (fg : Bool) : buildCandles [] i fg = [] := by
  unfold buildCandles
  by_cases h : i ≤ 0
  · rw [if_pos h]
  · rw [if_neg h]
    rfl

theorem buildCandles_true_chain (points : List PricePoint) (i : Int) (hi : 0 < i)
    (hne : points ≠ []) :
    List.Chain' (fun a b => a.t < b.t ∧ b.t ≤ a.t + i) (buildCandles points i true) := by
  rw [buildCandles_true_eq]
  exact gapFill_chain i hi _ (sparse_strict_sorted points i hi hne)
    (fun c hc => (sparse_mem_spec points i hi hne c hc).2.1)

theorem buildCandles_true_dvd (points : List PricePoint) (i : Int) (hi : 0 < i)
    (hne : points ≠ []) :
    ∀ c ∈ buildCandles points i true, i ∣ c.t := by
  rw [buildCandles_true_eq]
  exact gapFill_dvd i _ (fun c hc => (sparse_mem_spec points i hi hne c hc).2.1)

theorem buildCandles_true_ub (points : List PricePoint) (i : Int) (hi : 0 < i)
    (hne : points ≠ []) (B : Int) (hub : ∀ q ∈ points, q.t ≤ B) :
    ∀ c ∈ buildCandles points i true, c.t ≤ bucketStartOf i B := by
  rw [buildCandles_true_eq]
  apply gapFill_ub
  intro c hc
  obtain ⟨_, _, q, hqm, hq⟩ := sparse_mem_spec points i hi hne c hc
  rw [← hq]
  exact bucketStartOf_mono i hi (hub q hqm)

theorem buildCandles_true_sorted (points : List PricePoint) (i : Int) (hi : 0 < i)
    (hne : points ≠ []) :
    (buildCandles points i true).Pairwise (fun a b => a.t < b.t) := by
  haveI : IsTrans Candle (fun a b => a.t < b.t) := ⟨fun a b c h1 h2 => lt_trans h1 h2⟩
  rw [← List.chain'_iff_pairwise]
  exact ((buildCandles_true_chain points i hi hne).imp (fun a b hab => hab.1))

theorem buildCandles_true_getLast? (points : List PricePoint) (i : Int) :
    (buildCandles points i true).getLast? = (buildCandles points i false).getLast? := by
  rw [buildCandles_true_eq, gapFill_getLast?]

theorem gapFill_contains_fill (i : Int) :
    ∀ (pre : List Candle) (c next : Candle) (post : List Candle),
      ∀ x ∈ fillForward (c.t + i) next.t i c.close,
        x ∈ gapFill (pre ++ c :: next :: post) i := by
  intro pre
  induction pre with
  | nil =>
      intro c next post x hx
      show x ∈ c :: (fillForward (c.t + i) next.t i c.close ++ gapFill (next :: post) i)
      exact List.mem_cons_of_mem _ (List.mem_append_left _ hx)
  | cons a pre ih =>
      intro c next post x hx
      have hsh : (a :: pre) ++ c :: next :: post = a :: (pre ++ c :: next :: post) := rfl
      rw [hsh]
      cases hpre : pre ++ c :: next :: post with
      | nil => exact absurd hpre (by simp)
      | cons y ys =>
          show x ∈ a :: (fillForward (a.t + i) y.t i a.close ++ gapFill (y :: ys) i)
          apply List.mem_cons_of_mem
          apply List.mem_append_right
          rw [← hpre]
          exact ih c next post x hx

theorem sparse_sub_filled (points : List PricePoint) (i : Int) :
    ∀ c ∈ buildCandles points i false, c ∈ buildCandles points i true := by
  intro c hc
  rw [buildCandles_true_eq]
  exact gapFill_mem_orig i _ c hc

/-! ## Delayed-view composer facts -/

theorem useCandles_filtered_le (series : TimeSeries) (backfill : List PricePoint)
    (nowTs delayMs : Int) :
    ∀ q ∈ backfill.filter (fun r => r.t ≤ nowTs - delayMs) ++
        series.toArray.filter (fun r => r.t ≤ nowTs - delayMs), q.t ≤ nowTs - delayMs := by
  intro q hq
  rw [List.mem_append] at hq
  cases hq with
  | inl h => simpa using List.of_mem_filter h
  | inr h => simpa using List.of_mem_filter h

/-- Whenever the delayed view is non-empty, the timestamp of its final candle
is exactly the current (delayed) bucket start, and every candle beyond the
aggregated prefix is a flat synthetic carrying the last aggregated close. -/
theorem useCandles_spec (series : TimeSeries) (backfill : List PricePoint)
    (nowTs delayMs intervalMs : Int) (hi : 0 < intervalMs)
    (hne : useCandles series backfill nowTs delayMs intervalMs ≠ []) :
    (∃ l, (useCandles series backfill nowTs delayMs intervalMs).getLast? = some l ∧
        l.t = bucketStartOf intervalMs (nowTs - delayMs)) ∧
    (∀ lc, (buildCandles (backfill.filter (fun r => r.t ≤ nowTs - delayMs) ++
          series.toArray.filter (fun r => r.t ≤ nowTs - delayMs)) intervalMs true).getLast? =
        some lc →
      ∀ c ∈ (useCandles series backfill nowTs delayMs intervalMs).drop
          (buildCandles (backfill.filter (fun r => r.t ≤ nowTs - delayMs) ++
            series.toArray.filter (fun r => r.t ≤ nowTs - delayMs)) intervalMs true).length,
        c = ⟨c.t, lc.close, lc.close, lc.close, lc.close⟩) := by
  have hbody : useCandles series backfill nowTs delayMs intervalMs =
      (if (buildCandles (backfill.filter (fun r => r.t ≤ nowTs - delayMs) ++
            series.toArray.filter (fun r => r.t ≤ nowTs - delayMs)) intervalMs true).isEmpty
        then (buildCandles (backfill.filter (fun r => r.t ≤ nowTs - delayMs) ++
            series.toArray.filter (fun r => r.t ≤ nowTs - delayMs)) intervalMs true)
        else (buildCandles (backfill.filter (fun r => r.t ≤ nowTs - delayMs) ++
            series.toArray.filter (fun r => r.t ≤ nowTs - delayMs)) intervalMs true) ++
          extendForward
            (((buildCandles (backfill.filter (fun r => r.t ≤ nowTs - delayMs) ++
                series.toArray.filter (fun r => r.t ≤ nowTs - delayMs)) intervalMs
                  true).getLast?.getD dfltCandle).t + intervalMs)
            (bucketStartOf intervalMs (nowTs - delayMs)) intervalMs
            ((buildCandles (backfill.filter (fun r => r.t ≤ nowTs - delayMs) ++
              series.toArray.filter (fun r => r.t ≤ nowTs - delayMs)) intervalMs
                true).getLast?.getD dfltCandle)) := rfl
  by_cases hb : (buildCandles (backfill.filter (fun r => r.t ≤ nowTs - delayMs) ++
      series.toArray.filter (fun r => r.t ≤ nowTs - delayMs)) intervalMs true).isEmpty
  · rw [hbody, if_pos hb] at hne
    exact absurd (List.isEmpty_iff.mp hb) hne
  rw [hbody, if_neg hb]
  rw [hbody, if_neg hb] at hne
  have hbne : (buildCandles (backfill.filter (fun r => r.t ≤ nowTs - delayMs) ++
      series.toArray.filter (fun r => r.t ≤ nowTs - delayMs)) intervalMs true) ≠ [] := by
    intro h
    rw [h] at hb
    exact hb rfl
  have hpne : (backfill.filter (fun r => r.t ≤ nowTs - delayMs) ++
      series.toArray.filter (fun r => r.t ≤ nowTs - delayMs)) ≠ [] := by
    intro h
    rw [h, buildCandles_nil] at hbne
    exact hbne rfl
  obtain ⟨lc, hlc⟩ : ∃ lc, (buildCandles (backfill.filter (fun r => r.t ≤ nowTs - delayMs) ++
      series.toArray.filter (fun r => r.t ≤ nowTs - delayMs)) intervalMs true).getLast? =
      some lc := by
    cases h : (buildCandles (backfill.filter (fun r => r.t ≤ nowTs - delayMs) ++
        series.toArray.filter (fun r => r.t ≤ nowTs - delayMs)) intervalMs true).getLast? with
    | none => exact absurd (List.getLast?_eq_none_iff.mp h) hbne
    | some lc => exact ⟨lc, rfl⟩
  have hlcmem : lc ∈ buildCandles (backfill.filter (fun r => r.t ≤ nowTs - delayMs) ++
      series.toArray.filter (fun r => r.t ≤ nowTs - delayMs)) intervalMs true :=
    getLast?_mem_of_eq hlc
  have hub := buildCandles_true_ub _ intervalMs hi hpne (nowTs - delayMs)
    (useCandles_filtered_le series backfill nowTs delayMs) lc hlcmem
  have hdvd := buildCandles_true_dvd _ intervalMs hi hpne lc hlcmem
  have hdvd2 : intervalMs ∣ bucketStartOf intervalMs (nowTs - delayMs) - lc.t :=
    dvd_sub (bucketStartOf_dvd _ _) hdvd
  have hext := extendForward_last intervalMs hi (bucketStartOf intervalMs (nowTs - delayMs))
    (bucketStartOf intervalMs (nowTs - delayMs) - lc.t).toNat lc (by omega) hub hdvd2
  obtain ⟨l, hl, hlt⟩ := hext
  rw [hlc, Option.getD_some]
  constructor
  · refine ⟨l, ?_, hlt⟩
    have hsplit := List.dropLast_append_getLast? lc (by rw [hlc]; rfl)
    calc ((buildCandles (backfill.filter (fun r => r.t ≤ nowTs - delayMs) ++
            series.toArray.filter (fun r => r.t ≤ nowTs - delayMs)) intervalMs true) ++
          extendForward (lc.t + intervalMs)
            (bucketStartOf intervalMs (nowTs - delayMs)) intervalMs lc).getLast?
        = (((buildCandles (backfill.filter (fun r => r.t ≤ nowTs - delayMs) ++
            series.toArray.filter (fun r => r.t ≤ nowTs - delayMs)) intervalMs
              true).dropLast ++ [lc]) ++
          extendForward (lc.t + intervalMs)
            (bucketStartOf intervalMs (nowTs - delayMs)) intervalMs lc).getLast? := by
          rw [hsplit]
      _ = some l := by
          rw [List.append_assoc, List.singleton_append, List.getLast?_append, hl]
          rfl
  · intro lc' hlc' c hc
    injection hlc' with hlc'
    subst hlc'
    rw [List.drop_left] at hc
    have := extendForward_shape intervalMs (bucketStartOf intervalMs (nowTs - delayMs))
      ((bucketStartOf intervalMs (nowTs - delayMs)) + 1 - (lc.t + intervalMs)).toNat
      (lc.t + intervalMs) lc (by omega) c hc
    exact this

/-! ## Point-estimate readout characterization -/

theorem jsCeilDiv_zero : jsCeilDiv 0 1000 = 0 := by decide

theorem sorted_le_getLast {l : List PricePoint} {x : PricePoint} (hs : sortedByT l)
    (hx : l.getLast? = some x) : ∀ q ∈ l, q.t ≤ x.t := by
  intro q hq
  have hsplit := List.dropLast_append_getLast? x (by rw [hx]; rfl)
  rw [← hsplit] at hq hs
  rw [List.mem_append] at hq
  cases hq with
  | inl h =>
      have := (List.pairwise_append.mp hs).2.2 q h x (by simp)
      exact this
  | inr h =>
      rw [List.mem_singleton] at h
      rw [h]

/-- On a sorted buffer, BigPercent renders exactly: the last point at or
before the cutoff when one exists; otherwise the ceil-seconds countdown from
the earliest buffered point, or the waiting placeholder on an empty buffer. -/
theorem bigPercent_eq (series : TimeSeries) (nowTs delayMs : Int) (hs : sortedByT series.buf) :
    bigPercent series nowTs delayMs =
      match (series.buf.filter (fun q => q.t ≤ nowTs - delayMs)).getLast? with
      | some pt => Readout.percent pt
      | none =>
          if series.buf = [] then Readout.waiting
          else Readout.countdown
            (jsCeilDiv (max 0 ((series.buf.head?.getD dfltPt).t + delayMs - nowTs)) 1000) := by
  simp only [bigPercent]
  rw [atOrBefore_eq series (nowTs - delayMs) hs]
  cases hfl : (series.buf.filter (fun q => q.t ≤ nowTs - delayMs)).getLast? with
  | some pt => rfl
  | none =>
      by_cases hb : series.buf = []
      · have hlen : series.toArray.length = 0 := by
          show series.buf.length = 0
          rw [hb]
          rfl
        rw [if_pos hlen, if_pos hb]
      · have hlen : ¬ series.toArray.length = 0 := by
          show ¬ series.buf.length = 0
          intro h
          exact hb (List.length_eq_zero.mp h)
        rw [if_neg hlen, if_neg hb]
        have hearl : (series.toArray.head?.map (fun q => q.t)).getD 0 =
            (series.buf.head?.getD dfltPt).t := by
          show (series.buf.head?.map (fun q => q.t)).getD 0 = _
          cases series.buf with
          | nil => rfl
          | cons a l => rfl
        rw [hearl]
        by_cases hr : (series.buf.head?.getD dfltPt).t + delayMs - nowTs ≤ 0
        · rw [if_pos hr, max_eq_left (by omega), jsCeilDiv_zero]
        · rw [if_neg hr, max_eq_right (by omega)]

/-! ## Claim theorems -/

/-- Claim C1: spoiler safety of the delayed view — no point with
`t > nowTs - delayMs` influences the output: for any two backfills and any
two (sorted) live buffers that agree on all points at or before the cutoff,
the delayed candle sequence and the point estimate are identical; both
backfill and live-buffer points after the cutoff are dropped on every
recomputation. -/
theorem c1_spoiler_safety (series1 series2 : TimeSeries)
    (backfill1 backfill2 : List PricePoint) (nowTs delayMs intervalMs : Int)
    (hs1 : sortedByT series1.buf) (hs2 : sortedByT series2.buf)
    (hb : backfill1.filter (fun q => q.t ≤ nowTs - delayMs) =
      backfill2.filter (fun q => q.t ≤ nowTs - delayMs))
    (hl : series1.buf.filter (fun q => q.t ≤ nowTs - delayMs) =
      series2.buf.filter (fun q => q.t ≤ nowTs - delayMs)) :
    useCandles series1 backfill1 nowTs delayMs intervalMs =
      useCandles series2 backfill2 nowTs delayMs intervalMs ∧
    series1.atOrBefore (nowTs - delayMs) = series2.atOrBefore (nowTs - delayMs) := by
  constructor
  · simp only [useCandles, TimeSeries.toArray, hb, hl]
  · rw [atOrBefore_eq _ _ hs1, atOrBefore_eq _ _ hs2, hl]

theorem c1_spoiler_safety_witness :
    sortedByT ([⟨1, 2⟩, ⟨10, 3⟩] : List PricePoint) ∧
    sortedByT ([⟨1, 2⟩, ⟨20, 7⟩] : List PricePoint) ∧
    ([⟨0, 4⟩] : List PricePoint).filter (fun q => q.t ≤ 8 - 3) =
      ([⟨0, 4⟩, ⟨9, 6⟩] : List PricePoint).filter (fun q => q.t ≤ 8 - 3) ∧
    ([⟨1, 2⟩, ⟨10, 3⟩] : List PricePoint).filter (fun q => q.t ≤ 8 - 3) =
      ([⟨1, 2⟩, ⟨20, 7⟩] : List PricePoint).filter (fun q => q.t ≤ 8 - 3) ∧
    useCandles ⟨[⟨1, 2⟩, ⟨10, 3⟩], 5, none⟩ [⟨0, 4⟩] 8 3 1000 =
      useCandles ⟨[⟨1, 2⟩, ⟨20, 7⟩], 5, none⟩ [⟨0, 4⟩, ⟨9, 6⟩] 8 3 1000 ∧
    (⟨[⟨1, 2⟩, ⟨10, 3⟩], 5, none⟩ : TimeSeries).atOrBefore (8 - 3) =
      (⟨[⟨1, 2⟩, ⟨20, 7⟩], 5, none⟩ : TimeSeries).atOrBefore (8 - 3) := by
  have h := c1_spoiler_safety ⟨[⟨1, 2⟩, ⟨10, 3⟩], 5, none⟩
    ⟨[⟨1, 2⟩, ⟨20, 7⟩], 5, none⟩ [⟨0, 4⟩] [⟨0, 4⟩, ⟨9, 6⟩] 8 3 1000
    (by decide) (by decide) (by decide) (by decide)
  exact ⟨by decide, by decide, by decide, by decide, h.1, h.2⟩

/-- Claim C2: candle aggregation correctness — buildCandles returns an empty
sequence when the interval is non-positive or the point list is empty;
otherwise every output candle is keyed by a bucket boundary, every bucket
candle has open = first point of its bucket (ascending order, never altered
afterwards), high/low = max/min over the bucket, close = last point of the
bucket, output is sorted ascending by t, and the worked example holds. -/
theorem c2_candle_aggregation (points : List PricePoint) (intervalMs : Int) :
    (intervalMs ≤ 0 → buildCandles points intervalMs true = []) ∧
    (points = [] → buildCandles points intervalMs true = []) ∧
    (0 < intervalMs → points ≠ [] →
      (∀ c ∈ buildCandles points intervalMs true, intervalMs ∣ c.t) ∧
      (∀ c ∈ buildCandles points intervalMs false,
        c ∈ buildCandles points intervalMs true ∧
        (sortPoints points).filter (fbkt intervalMs c.t) ≠ [] ∧
        c.«open» = (((sortPoints points).filter (fbkt intervalMs c.t)).head?.getD dfltPt).p ∧
        c.close = (((sortPoints points).filter (fbkt intervalMs c.t)).getLast?.getD dfltPt).p ∧
        (∀ q ∈ (sortPoints points).filter (fbkt intervalMs c.t), q.p ≤ c.high ∧ c.low ≤ q.p) ∧
        (∃ q ∈ (sortPoints points).filter (fbkt intervalMs c.t), c.high = q.p) ∧
        (∃ q ∈ (sortPoints points).filter (fbkt intervalMs c.t), c.low = q.p)) ∧
      (buildCandles points intervalMs true).Pairwise (fun a b => a.t < b.t)) ∧
    buildCandles [⟨0, 1/2⟩, ⟨500, 3/5⟩, ⟨1500, 2/5⟩] 1000 true =
      [⟨0, 1/2, 3/5, 1/2, 3/5⟩, ⟨1000, 2/5, 2/5, 2/5, 2/5⟩] := by
  refine ⟨fun h => buildCandles_nonpos points intervalMs h true,
    fun h => by rw [h]; exact buildCandles_nil intervalMs true, fun hi hne => ?_, ?_⟩
  · refine ⟨buildCandles_true_dvd points intervalMs hi hne, ?_,
      buildCandles_true_sorted points intervalMs hi hne⟩
    intro c hc
    obtain ⟨hfold, hdvd, hpt⟩ := sparse_mem_spec points intervalMs hi hne c hc
    have hfne : (sortPoints points).filter (fbkt intervalMs c.t) ≠ [] := by
      intro h
      rw [h, bucketFold_nil] at hfold
      exact Option.noConfusion hfold
    refine ⟨sparse_sub_filled points intervalMs c hc, hfne,
      bucketFold_open c.t _ c hfold, bucketFold_close c.t _ c hfold,
      fun q hq => ⟨(bucketFold_high c.t _ c hfold).1 q hq,
        (bucketFold_low c.t _ c hfold).1 q hq⟩,
      (bucketFold_high c.t _ c hfold).2, (bucketFold_low c.t _ c hfold).2⟩
  · simp [buildCandles, bucketize, sortPoints, List.mergeSort, ptLE, insertPoint, newCandle,
      updateCandle, bucketStartOf, candleLE, gapFill, fillForward, max_def, min_def]
    norm_num

theorem c2_candle_aggregation_witness :
    ((0 : Int) ≤ 0 ∧ buildCandles [⟨0, 1/2⟩] 0 true = []) ∧
    buildCandles [⟨0, 1/2⟩, ⟨500, 3/5⟩, ⟨1500, 2/5⟩] 1000 true =
      [⟨0, 1/2, 3/5, 1/2, 3/5⟩, ⟨1000, 2/5, 2/5, 2/5, 2/5⟩] :=
  ⟨⟨by decide, (c2_candle_aggregation [⟨0, 1/2⟩] 0).1 (by decide)⟩,
    (c2_candle_aggregation [⟨0, 1/2⟩] 0).2.2.2⟩

/-- Claim C3: gap filling — with gap filling enabled (the default), between
any two adjacent sparse candles, a flat synthetic candle carrying the earlier
close appears at every missing bucket boundary, consecutive output entries
never differ in t by more than one interval, and the worked example holds. -/
theorem c3_gap_filling (points : List PricePoint) (intervalMs : Int)
    (hi : 0 < intervalMs) (hne : points ≠ []) :
    (∀ (pre : List Candle) (c next : Candle) (post : List Candle),
      buildCandles points intervalMs false = pre ++ c :: next :: post →
      ∀ m : ℕ, c.t + ((m : Int) + 1) * intervalMs < next.t →
        (⟨c.t + ((m : Int) + 1) * intervalMs, c.close, c.close, c.close, c.close⟩ : Candle) ∈
          buildCandles points intervalMs true) ∧
    List.Chain' (fun a b => b.t ≤ a.t + intervalMs) (buildCandles points intervalMs true) ∧
    buildCandles [⟨0, 3/5⟩, ⟨3000, 2/5⟩] 1000 true =
      [⟨0, 3/5, 3/5, 3/5, 3/5⟩, ⟨1000, 3/5, 3/5, 3/5, 3/5⟩, ⟨2000, 3/5, 3/5, 3/5, 3/5⟩,
        ⟨3000, 2/5, 2/5, 2/5, 2/5⟩] := by
  refine ⟨?_, ?_, ?_⟩
  · intro pre c next post hdec m hm
    rw [buildCandles_true_eq, hdec]
    apply gapFill_contains_fill
    have harith : c.t + ((m : Int) + 1) * intervalMs =
        (c.t + intervalMs) + (m : ℕ) * intervalMs := by ring
    rw [harith]
    exact fillForward_cover intervalMs hi next.t c.close m (c.t + intervalMs)
      (by rw [← harith]; exact hm)
  · exact (buildCandles_true_chain points intervalMs hi hne).imp (fun a b hab => hab.2)
  · simp [buildCandles, bucketize, sortPoints, List.mergeSort, ptLE, insertPoint, newCandle,
      updateCandle, bucketStartOf, candleLE, gapFill, fillForward]

theorem c3_gap_filling_witness :
    (0 : Int) < 1000 ∧ ([⟨0, 3/5⟩, ⟨3000, 2/5⟩] : List PricePoint) ≠ [] ∧
    buildCandles [⟨0, 3/5⟩, ⟨3000, 2/5⟩] 1000 true =
      [⟨0, 3/5, 3/5, 3/5, 3/5⟩, ⟨1000, 3/5, 3/5, 3/5, 3/5⟩, ⟨2000, 3/5, 3/5, 3/5, 3/5⟩,
        ⟨3000, 2/5, 2/5, 2/5, 2/5⟩] :=
  ⟨by decide, by decide,
    (c3_gap_filling [⟨0, 3/5⟩, ⟨3000, 2/5⟩] 1000 (by decide) (by decide)).2.2⟩

/-- Claim C4: the forward extension reaches the cutoff — whenever the delayed
view is non-empty, its final candle's t equals
`floor((nowTs - delayMs) / intervalMs) * intervalMs`, and every candle
appended beyond the aggregated prefix is a flat synthetic carrying the last
aggregated candle's close as open, high, low and close. -/
theorem c4_forward_extension (series : TimeSeries) (backfill : List PricePoint)
    (nowTs delayMs intervalMs : Int) (hi : 0 < intervalMs)
    (hne : useCandles series backfill nowTs delayMs intervalMs ≠ []) :
    (∃ l, (useCandles series backfill nowTs delayMs intervalMs).getLast? = some l ∧
        l.t = bucketStartOf intervalMs (nowTs - delayMs)) ∧
    (∀ lc, (buildCandles (backfill.filter (fun r => r.t ≤ nowTs - delayMs) ++
          series.toArray.filter (fun r => r.t ≤ nowTs - delayMs)) intervalMs true).getLast? =
        some lc →
      ∀ c ∈ (useCandles series backfill nowTs delayMs intervalMs).drop
          (buildCandles (backfill.filter (fun r => r.t ≤ nowTs - delayMs) ++
            series.toArray.filter (fun r => r.t ≤ nowTs - delayMs)) intervalMs true).length,
        c = ⟨c.t, lc.close, lc.close, lc.close, lc.close⟩) :=
  useCandles_spec series backfill nowTs delayMs intervalMs hi hne

theorem c4_forward_extension_witness :
    (0 : Int) < 1000 ∧
    useCandles ⟨[⟨1000, 2⟩], 10, none⟩ [] 10000 1000 1000 ≠ [] ∧
    (∃ l, (useCandles ⟨[⟨1000, 2⟩], 10, none⟩ [] 10000 1000 1000).getLast? = some l ∧
      l.t = bucketStartOf 1000 (10000 - 1000)) := by
  have hne : useCandles ⟨[⟨1000, 2⟩], 10, none⟩ [] 10000 1000 1000 ≠ [] := by
    simp [useCandles, TimeSeries.toArray, buildCandles, bucketize, sortPoints, List.mergeSort,
      ptLE, insertPoint, newCandle, updateCandle, bucketStartOf, candleLE, gapFill, fillForward,
      extendForward, dfltCandle]
  exact ⟨by decide, hne,
    (c4_forward_extension ⟨[⟨1000, 2⟩], 10, none⟩ [] 10000 1000 1000 (by decide) hne).1⟩

/-- Claim C5: point-estimate readout — on a sorted live series, BigPercent
displays exactly the last buffered point with `t <= nowTs - delayMs` (no
forward interpolation: any displayed point is a buffered point at or before
the cutoff); when no such point exists but the buffer is non-empty, it
reports the countdown `ceil(max(0, earliest.t + delayMs - nowTs) / 1000)`
seconds, and on an empty buffer an indeterminate waiting state. -/
theorem c5_point_estimate (series : TimeSeries) (nowTs delayMs : Int)
    (hs : sortedByT series.buf) :
    bigPercent series nowTs delayMs =
      (match (series.buf.filter (fun q => q.t ≤ nowTs - delayMs)).getLast? with
      | some pt => Readout.percent pt
      | none =>
          if series.buf = [] then Readout.waiting
          else Readout.countdown
            (jsCeilDiv (max 0 ((series.buf.head?.getD dfltPt).t + delayMs - nowTs)) 1000)) ∧
    (∀ pt, series.atOrBefore (nowTs - delayMs) = some pt →
      pt ∈ series.buf ∧ pt.t ≤ nowTs - delayMs) := by
  refine ⟨bigPercent_eq series nowTs delayMs hs, ?_⟩
  intro pt hpt
  rw [atOrBefore_eq _ _ hs] at hpt
  have hm := getLast?_mem_of_eq hpt
  exact ⟨List.mem_of_mem_filter hm, by simpa using List.of_mem_filter hm⟩

theorem c5_point_estimate_witness :
    sortedByT ([⟨1, 2⟩, ⟨10, 3⟩] : List PricePoint) ∧
    bigPercent ⟨[⟨1, 2⟩, ⟨10, 3⟩], 5, none⟩ 8 3 = Readout.percent ⟨1, 2⟩ ∧
    bigPercent ⟨[⟨10, 3⟩], 5, none⟩ 8 3 = Readout.countdown 1 := by
  refine ⟨by decide, ?_, ?_⟩
  · rw [(c5_point_estimate ⟨[⟨1, 2⟩, ⟨10, 3⟩], 5, none⟩ 8 3 (by decide)).1]
    decide
  · rw [(c5_point_estimate ⟨[⟨10, 3⟩], 5, none⟩ 8 3 (by decide)).1]
    decide

/-- Claim C6: atOrBefore correctness — on a sorted buffer, atOrBefore returns
the maximum-timestamp point among those with `t <= ts` (none exactly when the
buffer is empty or all points are newer), and indexAtOrBefore returns its
index, i.e. one less than the number of points at or before ts, or -1. -/
theorem c6_atOrBefore_correctness (s : TimeSeries) (ts : Int) (hs : sortedByT s.buf) :
    s.atOrBefore ts = (s.buf.filter (fun q => q.t ≤ ts)).getLast? ∧
    (∀ pt, s.atOrBefore ts = some pt →
      pt ∈ s.buf ∧ pt.t ≤ ts ∧ ∀ q ∈ s.buf, q.t ≤ ts → q.t ≤ pt.t) ∧
    (s.atOrBefore ts = none ↔ s.buf = [] ∨ ∀ q ∈ s.buf, ts < q.t) ∧
    s.indexAtOrBefore ts = ((s.buf.filter (fun q => q.t ≤ ts)).length : Int) - 1 := by
  refine ⟨atOrBefore_eq s ts hs, ?_, ?_, indexAtOrBefore_eq s ts hs⟩
  · intro pt hpt
    rw [atOrBefore_eq s ts hs] at hpt
    have hm := getLast?_mem_of_eq hpt
    refine ⟨List.mem_of_mem_filter hm, by simpa using List.of_mem_filter hm, ?_⟩
    intro q hq hqle
    have hqf : q ∈ s.buf.filter (fun r => r.t ≤ ts) :=
      List.mem_filter.mpr ⟨hq, by simpa using hqle⟩
    exact sorted_le_getLast (List.Pairwise.sublist (List.filter_sublist _) hs) hpt q hqf
  · rw [atOrBefore_eq s ts hs, List.getLast?_eq_none_iff, List.filter_eq_nil_iff]
    constructor
    · intro h
      by_cases hb : s.buf = []
      · exact Or.inl hb
      · refine Or.inr ?_
        intro q hq
        have := h q hq
        simp only [decide_eq_true_eq] at this
        omega
    · intro h q hq
      simp only [decide_eq_true_eq]
      cases h with
      | inl hb => rw [hb] at hq; exact absurd hq (List.not_mem_nil q)
      | inr hall => have := hall q hq; omega

theorem c6_atOrBefore_correctness_witness :
    sortedByT ([⟨100, 1⟩, ⟨200, 2⟩, ⟨300, 3⟩] : List PricePoint) ∧
    (⟨[⟨100, 1⟩, ⟨200, 2⟩, ⟨300, 3⟩], 10, none⟩ : TimeSeries).atOrBefore 250 =
      some ⟨200, 2⟩ ∧
    (⟨[⟨100, 1⟩, ⟨200, 2⟩, ⟨300, 3⟩], 10, none⟩ : TimeSeries).indexAtOrBefore 250 = 1 := by
  refine ⟨by decide, ?_, ?_⟩
  · rw [(c6_atOrBefore_correctness ⟨[⟨100, 1⟩, ⟨200, 2⟩, ⟨300, 3⟩], 10, none⟩ 250
      (by decide)).1]
    decide
  · rw [(c6_atOrBefore_correctness ⟨[⟨100, 1⟩, ⟨200, 2⟩, ⟨300, 3⟩], 10, none⟩ 250
      (by decide)).2.2.2]
    decide

/-- Claim C7: bound enforcement on push — a push on a sorted buffer receiving
a no-older point first drops every point with `t < point.t - maxAgeMs` (when
configured) and then drops from the front until at most maxPoints remain;
consequently pushing N > maxPoints points leaves exactly the maxPoints
most-recent ones, and pushing a sorted sequence (within the count bound)
leaves exactly the points inside the age window of the newest point. -/
theorem c7_bound_enforcement (s : TimeSeries) (q : PricePoint) (M : Nat) (a : Int)
    (ps : List PricePoint) :
    (sortedByT s.buf → (∀ r ∈ s.buf, r.t ≤ q.t) → (s.push q).buf = pushSpec s q) ∧
    (pushAll ⟨[], M, none⟩ ps).buf = ps.drop (ps.length - M) ∧
    (0 ≤ a → sortedByT ps → ps.length ≤ M →
      (pushAll ⟨[], M, some a⟩ ps).buf =
        ps.filter (fun r => !(r.t < (ps.getLast?.getD dfltPt).t - a))) := by
  refine ⟨fun hs hle => push_eq_pushSpec s q hs hle, ?_, fun ha hsp hlen =>
    pushAll_age M a ha ps hsp hlen⟩
  have h := pushAll_none M ps ⟨[], M, none⟩ rfl rfl (by simp)
  rw [h]
  unfold lastN
  rw [List.nil_append]

theorem c7_bound_enforcement_witness :
    ((0 : Int) ≤ 5 ∧ sortedByT ([⟨1, 2⟩, ⟨10, 3⟩] : List PricePoint) ∧
      ([⟨1, 2⟩, ⟨10, 3⟩] : List PricePoint).length ≤ 10 ∧
      (pushAll ⟨[], 10, some 5⟩ [⟨1, 2⟩, ⟨10, 3⟩]).buf =
        ([⟨1, 2⟩, ⟨10, 3⟩] : List PricePoint).filter
          (fun r => !(r.t <
            (([⟨1, 2⟩, ⟨10, 3⟩] : List PricePoint).getLast?.getD dfltPt).t - 5))) ∧
    (pushAll ⟨[], 2, none⟩ [⟨1, 2⟩, ⟨2, 3⟩, ⟨3, 4⟩]).buf =
      ([⟨1, 2⟩, ⟨2, 3⟩, ⟨3, 4⟩] : List PricePoint).drop (3 - 2) :=
  ⟨⟨by decide, by decide, by decide,
      (c7_bound_enforcement ⟨[], 1, none⟩ dfltPt 10 5 [⟨1, 2⟩, ⟨10, 3⟩]).2.2
        (by decide) (by decide) (by decide)⟩,
    (c7_bound_enforcement ⟨[], 1, none⟩ dfltPt 2 0 [⟨1, 2⟩, ⟨2, 3⟩, ⟨3, 4⟩]).2.1⟩

/-- Claim C8: monotonic buffer invariant — pushing any non-decreasing
sequence of points into an initially empty buffer leaves toArray() sorted
ascending by t after every push, whatever the configured bounds. -/
theorem c8_monotonic_invariant (M : Nat) (a : Option Int) (ps : List PricePoint)
    (hps : sortedByT ps) :
    ∀ k : Nat, sortedByT (pushAll ⟨[], M, a⟩ (ps.take k)).toArray := by
  intro k
  have hsub := pushAll_buf_sublist (ps.take k) ⟨[], M, a⟩
  rw [List.nil_append] at hsub
  exact List.Pairwise.sublist (hsub.trans (List.take_sublist k ps)) hps

theorem c8_monotonic_invariant_witness :
    sortedByT ([⟨1, 2⟩, ⟨3, 3⟩, ⟨3, 4⟩] : List PricePoint) ∧
    sortedByT (pushAll ⟨[], 2, some 100⟩
      (([⟨1, 2⟩, ⟨3, 3⟩, ⟨3, 4⟩] : List PricePoint).take 3)).toArray :=
  ⟨by decide, c8_monotonic_invariant 2 (some 100) [⟨1, 2⟩, ⟨3, 3⟩, ⟨3, 4⟩] (by decide) 3⟩

/-- Claim C9: probability blending — mid(tob) is the bid/ask midpoint when
both are present, else last, else whichever side is present, else undefined;
blendedProbYes averages mid(yes) with 1 - mid(no) clamped to [0,1] when both
exist and falls back to the single known side; blendedProbNo prefers mid(no)
and falls back to 1 - mid(yes); and the worked example yields 0.55. -/
theorem c9_probability_blending :
    (∀ (t : TOB) (bb ba : Rat), t.bestBid = some bb → t.bestAsk = some ba →
      midFrom (some t) = some ((bb + ba) / 2)) ∧
    (∀ (t : TOB) (l : Rat), (t.bestBid = none ∨ t.bestAsk = none) → t.last = some l →
      midFrom (some t) = some l) ∧
    (∀ t : TOB, (t.bestBid = none ∨ t.bestAsk = none) → t.last = none →
      midFrom (some t) = t.bestBid.or t.bestAsk) ∧
    midFrom none = none ∧
    (∀ (y n : Option TOB) (my mn : Rat), midFrom y = some my → midFrom n = some mn →
      computeBlendedProb y n = some (clamp01 ((my + (1 - mn)) / 2))) ∧
    (∀ (y n : Option TOB) (my : Rat), midFrom y = some my → midFrom n = none →
      computeBlendedProb y n = some (clamp01 my)) ∧
    (∀ (y n : Option TOB) (mn : Rat), midFrom y = none → midFrom n = some mn →
      computeBlendedProb y n = some (clamp01 (1 - mn))) ∧
    (∀ y n : Option TOB, midFrom y = none → midFrom n = none →
      computeBlendedProb y n = none) ∧
    (∀ (y n : Option TOB) (mn : Rat), midFrom n = some mn →
      computeNoProb y n = some (clamp01 mn)) ∧
    (∀ (y n : Option TOB) (my : Rat), midFrom y = some my → midFrom n = none →
      computeNoProb y n = some (clamp01 (1 - my))) ∧
    (∀ y n : Option TOB, midFrom y = none → midFrom n = none → computeNoProb y n = none) ∧
    computeBlendedProb (some ⟨some (2/5), some (3/5), none, none⟩)
      (some ⟨some (3/10), some (1/2), none, none⟩) = some (11/20) := by
  refine ⟨?_, ?_, ?_, rfl, ?_, ?_, ?_, ?_, ?_, ?_, ?_, ?_⟩
  · intro t bb ba h1 h2
    obtain ⟨tb, ta, tl, tu⟩ := t
    dsimp only at h1 h2
    subst h1
    subst h2
    cases tl <;> rfl
  · intro t l hor h2
    obtain ⟨tb, ta, tl, tu⟩ := t
    dsimp only at hor h2 ⊢
    subst h2
    rcases hor with h | h
    · subst h
      cases ta <;> rfl
    · subst h
      cases tb <;> rfl
  · intro t hor h2
    obtain ⟨tb, ta, tl, tu⟩ := t
    dsimp only at hor h2 ⊢
    subst h2
    rcases hor with h | h
    · subst h
      cases ta <;> rfl
    · subst h
      cases tb <;> rfl
  · intro y n my mn h1 h2
    simp [computeBlendedProb, h1, h2]
  · intro y n my h1 h2
    simp [computeBlendedProb, h1, h2]
  · intro y n mn h1 h2
    simp [computeBlendedProb, h1, h2]
  · intro y n h1 h2
    simp [computeBlendedProb, h1, h2]
  · intro y n mn h2
    simp [computeNoProb, h2]
  · intro y n my h1 h2
    simp [computeNoProb, h1, h2]
  · intro y n h1 h2
    simp [computeNoProb, h1, h2]
  · simp [computeBlendedProb, midFrom, clamp01]
    norm_num

theorem c9_probability_blending_witness :
    (⟨some (2/5), some (3/5), none, none⟩ : TOB).bestBid = some (2/5) ∧
    (⟨some (2/5), some (3/5), none, none⟩ : TOB).bestAsk = some (3/5) ∧
    midFrom (some ⟨some (2/5), some (3/5), none, none⟩) = some ((2/5 + 3/5) / 2) :=
  ⟨rfl, rfl, c9_probability_blending.1 ⟨some (2/5), some (3/5), none, none⟩ (2/5) (3/5) rfl rfl⟩

/-- Claim C10: push never discards the newest point — with maxPoints ≥ 1 and
a non-negative age bound (when configured), the buffer is non-empty right
after any push and its last element is the point just pushed. -/
theorem c10_push_keeps_newest (s : TimeSeries) (q : PricePoint) (hM : 1 ≤ s.maxPoints)
    (ha : ∀ x ∈ s.maxAgeMs, (0 : Int) ≤ x) :
    (s.push q).buf ≠ [] ∧ (s.push q).buf.getLast? = some q :=
  push_keeps_last s q hM ha

theorem c10_push_keeps_newest_witness :
    1 ≤ (⟨[⟨1, 2⟩], 2, some 5⟩ : TimeSeries).maxPoints ∧
    (∀ x ∈ (⟨[⟨1, 2⟩], 2, some 5⟩ : TimeSeries).maxAgeMs, (0 : Int) ≤ x) ∧
    ((⟨[⟨1, 2⟩], 2, some 5⟩ : TimeSeries).push ⟨3, 3⟩).buf ≠ [] ∧
    ((⟨[⟨1, 2⟩], 2, some 5⟩ : TimeSeries).push ⟨3, 3⟩).buf.getLast? = some ⟨3, 3⟩ := by
  have ha : ∀ x ∈ (⟨[⟨1, 2⟩], 2, some 5⟩ : TimeSeries).maxAgeMs, (0 : Int) ≤ x := by
    intro x hx
    simp at hx
    omega
  have h := c10_push_keeps_newest ⟨[⟨1, 2⟩], 2, some 5⟩ ⟨3, 3⟩ (by decide) ha
  exact ⟨by decide, ha, h.1, h.2⟩
